import Mathlib

/-!
Verification development for the `schemlib` NBT core.

Shallow embedding of `src/schemlib/nbt.py` and `src/schemlib/snbt.py`:

* the bit-packed array tags (`_ArrayTag.__getitem__`, `__setitem__`, `__call__`,
  `calcsize`, `pack_list`) over a storage modelled as the list of backing words
  (each word the big-endian unsigned value of one `W`-bit run of the bitstring);
* the binary codec (`String`, `List`, `Compound`, `Named` encode/decode);
* the SNBT textual grammar (`to_snbt`, `from_snbt`) over a fragment of the tag
  model.

Modelling notes, applying to the whole file:
* Python exceptions are modelled by `Option`/`Except` results (`none` = the
  operation raises).
* Python's arbitrary-precision non-negative ints and their bitwise operators
  are modelled by `Nat` with `&&&`, `|||`, `<<<`, `>>>`; `x & ~y` on
  non-negative ints clears the bits of `y` from `x` (`andNot`, equal to
  `Nat.ldiff`, stated via `^^^` so the kernel can evaluate it).
* `ceil(log2(m))` computed through float `math.log2` is modelled by the exact
  ceiling logarithm (they agree for every magnitude below `2 ^ 48`, far above
  the palette sizes this library packs); `ceil` of the float division in
  `pack_list` is modelled by exact ceiling division, exact below `2 ^ 53`.
* Out-of-range list indexing (Python `IndexError`) is not modelled: reads use
  `getD` and all theorems restrict indices to the allocated range, as the
  source's callers do.
-/

/-! ## Ceiling base-2 logarithm, fuel-based so that it evaluates by `decide` -/

/-- Fuel-based ceiling log2, mirroring `ceil(log2 n)` for `n ≥ 1`.
Agrees with `Nat.clog 2` whenever `n ≤ fuel` (see `clog2F_eq_clog`). -/
def clog2F (fuel n : Nat) : Nat :=
  match fuel with
  | 0 => 0
  | f + 1 => if n ≤ 1 then 0 else clog2F f ((n + 1) / 2) + 1

theorem clog2F_eq_clog (fuel n : Nat) (h : n ≤ fuel) : clog2F fuel n = Nat.clog 2 n := by
  induction fuel generalizing n with
  | zero =>
    interval_cases n
    simp [clog2F]
  | succ f ih =>
    by_cases h1 : n ≤ 1
    · rcases Nat.le_one_iff_eq_zero_or_eq_one.mp h1 with rfl | rfl <;> simp [clog2F]
    · push_neg at h1
      have hlt : (n + 1) / 2 < n := Nat.div_lt_of_lt_mul (by omega)
      rw [clog2F, if_neg (by omega), ih ((n + 1) / 2) (by omega)]
      conv_rhs => rw [Nat.clog_of_two_le (by norm_num) (by omega)]
      norm_num

/-- `ceil(log2 n)` as used by the source (exact model of the float computation
for the magnitudes in range, see the file header). -/
def ceilLog2 (n : Nat) : Nat := clog2F n n

theorem ceilLog2_eq_clog (n : Nat) : ceilLog2 n = Nat.clog 2 n :=
  clog2F_eq_clog n n le_rfl

/-! ## `_ArrayTag.calcsize` (nbt.py lines 179-186)

```python
size = max(ceil(log2(max(map(abs, values)))), 2)
if any((x < 0 for x in values)):
    size += 1
return size
```
`max(())` on an empty list raises `ValueError`, and `math.log2(0)` raises
`ValueError`; both are modelled as `none`. -/

/-- `max(map(abs, values))` as a natural number (0 only when the list is empty
or all-zero). -/
def maxAbs (values : List Int) : Nat :=
  values.foldl (fun acc v => max acc v.natAbs) 0

def calcsize (values : List Int) : Option Nat :=
  match values with
  | [] => none
  | _ :: _ =>
    let m := maxAbs values
    if m = 0 then none
    else some (max (ceilLog2 m) 2 + (if values.any (fun v => v < 0) then 1 else 0))

/-- `calcsize` also accepts a single int, wrapped into a one-element list
(`if isinstance(values, int): values = [values]`). -/
def calcsizeInt (v : Int) : Option Nat := calcsize [v]

/-! ## Packed-array storage and the virtual-width view algorithm

Storage is the list of backing words: word `k` is the unsigned big-endian
value of bits `[k*W, (k+1)*W)` of the backing `BitArray`, exactly what
`Array(self.width, ...)[k]` yields. -/

/-- `_ArrayTag.__getitem__` with a virtual width (nbt.py lines 259-285). -/
def viewGet (W V : Nat) (s : List Nat) (idx : Nat) : Nat :=
  let start_offset := idx * V
  let start_arr_index := start_offset / W
  let end_arr_index := ((idx + 1) * V - 1) / W
  let start_bit_offset := start_offset % W
  if start_arr_index = end_arr_index then
    (s.getD start_arr_index 0 >>> start_bit_offset) &&& ((1 <<< V) - 1)
  else
    let end_offset := W - start_bit_offset
    ((s.getD start_arr_index 0 >>> start_bit_offset) |||
      (s.getD end_arr_index 0 <<< end_offset)) &&& ((1 <<< V) - 1)

/-- Python `x & ~y` for non-negative `x`, `y`: `~y` is the infinite
two's-complement, so the result keeps the bits of `x` outside `y`. Equal to
`Nat.ldiff x y` (see `andNot_eq_ldiff`); written with `^^^`/`&&&` so the
kernel's accelerated arithmetic evaluates it. -/
def andNot (x y : Nat) : Nat := x ^^^ (x &&& y)

/-- `_ArrayTag.__setitem__` with a virtual width (nbt.py lines 287-320).

The straddling branch of the source computes `end_offset = 64 -
start_bit_offset` with a literal 64 (not `self.width.bitlength`), so `j1 =
virtual_width - end_offset` is negative whenever `W < 64`; Python then raises
`ValueError: negative shift count` (with the start word already rewritten).
The raise is modelled as `none`. -/
def viewSet (W V : Nat) (s : List Nat) (idx : Nat) (value : Nat) : Option (List Nat) :=
  let start_offset := idx * V
  let start_arr_index := start_offset / W
  let end_arr_index := ((idx + 1) * V - 1) / W
  let start_bit_offset := start_offset % W
  let m := (1 <<< W) - 1
  let mask := (1 <<< V) - 1
  let zeroed := andNot (s.getD start_arr_index 0) (mask <<< start_bit_offset)
  let updated := zeroed ||| ((value &&& mask) <<< start_bit_offset)
  let s1 := s.set start_arr_index (updated &&& m)
  if start_arr_index = end_arr_index then
    some s1
  else
    let end_offset := 64 - start_bit_offset
    if V < end_offset then
      none
    else
      let j1 := V - end_offset
      some (s1.set end_arr_index
        ((((s1.getD end_arr_index 0 >>> j1) <<< j1) ||| ((value &&& mask) >>> end_offset)) &&& m))

/-- `_ArrayTag.__setitem__` without a virtual width: overwrite the `W`-bit run
at `idx * W` (`self.width.build(value)` raises on a value outside `[0, 2^W)`).
-/
def nativeSet (W : Nat) (s : List Nat) (idx : Nat) (value : Nat) : Option (List Nat) :=
  if value < 2 ^ W then some (s.set idx value) else none

/-- `_ArrayTag.__getitem__` without a virtual width: `self.asarray()[idx]`. -/
def nativeGet (s : List Nat) (idx : Nat) : Nat := s.getD idx 0

/-! ## `_ArrayTag.pack_list` (nbt.py lines 198-213)

```python
if width is None:
    width = max(2, ceil(log2(max(values))))
length = ceil((len(values) * width) / cls.width.bitlength)
obj = cls.empty(length)
view = obj(width)
for (i, value) in enumerate(values):
    view[i] = value
return obj
```
Note the omitted-width branch uses `max(values)` (the signed maximum, no
`abs`) and adds no sign bit — unlike `calcsize`. `max([])` and `log2` of a
non-positive number raise `ValueError`. A negative `value` reaches the view
write only as `value & mask`, i.e. as `value mod 2^width`. -/

def packListAux (W width : Nat) (values : List Int) (i : Nat) (s : List Nat) :
    Option (List Nat) :=
  match values with
  | [] => some s
  | v :: rest => do
    let s' ← viewSet W width s i (v % ((2 : Int) ^ width)).toNat
    packListAux W width rest (i + 1) s'

/-- The `width is None` branch: `max(2, ceil(log2(max(values))))`, raising
(`none`) when `values` is empty or its maximum is not positive. -/
def packListWidth (values : List Int) : Option Nat :=
  match values.max? with
  | none => none
  | some mx => if mx ≤ 0 then none else some (max 2 (ceilLog2 mx.toNat))

def pack_list (W : Nat) (values : List Int) (width? : Option Nat) : Option (List Nat) :=
  match (match width? with | some w => some w | none => packListWidth values) with
  | none => none
  | some width =>
    packListAux W width values 0 (List.replicate ((values.length * width + (W - 1)) / W) 0)

/-! ## Helper lemmas: list updates, masks, bit views -/

theorem getD_set_self {l : List Nat} {i a : Nat} (h : i < l.length) :
    (l.set i a).getD i 0 = a := by
  rw [List.getD_eq_getElem?_getD, List.getElem?_set_self h]
  rfl

theorem getD_set_ne {l : List Nat} {i j a : Nat} (h : i ≠ j) :
    (l.set i a).getD j 0 = l.getD j 0 := by
  rw [List.getD_eq_getElem?_getD, List.getElem?_set_ne h, ← List.getD_eq_getElem?_getD]

theorem getD_mem (l : List Nat) (k : Nat) (h : k < l.length) : l.getD k 0 ∈ l := by
  rw [List.getD_eq_getElem?_getD, List.getElem?_eq_getElem h]
  exact List.getElem_mem h

theorem one_shiftLeft_eq (n : Nat) : (1 <<< n) = 2 ^ n := by
  rw [Nat.shiftLeft_eq, one_mul]

theorem land_mask (x n : Nat) : x &&& ((1 <<< n) - 1) = x % 2 ^ n := by
  rw [one_shiftLeft_eq]
  apply Nat.eq_of_testBit_eq
  intro i
  simp [Nat.testBit_land, Nat.testBit_two_pow_sub_one, Nat.testBit_mod_two_pow, Bool.and_comm]

theorem mask_lt (x n : Nat) : x &&& ((1 <<< n) - 1) < 2 ^ n := by
  rw [land_mask]
  exact Nat.mod_lt _ (Nat.pos_pow_of_pos n (by norm_num))

theorem testBit_mask (x n i : Nat) :
    (x &&& ((1 <<< n) - 1)).testBit i = (x.testBit i && decide (i < n)) := by
  rw [one_shiftLeft_eq, Nat.testBit_land, Nat.testBit_two_pow_sub_one]

/-- Bit `b` of the backing buffer: bit `b % W` of backing word `b / W`. -/
def bitOf (W : Nat) (s : List Nat) (b : Nat) : Bool :=
  (s.getD (b / W) 0).testBit (b % W)


/-- The end word index of slot `i`: the start word if the slot fits in one
backing word, the next word otherwise. -/
theorem end_index_eq (W V i : Nat) (hW : 0 < W) (hV : 0 < V) (hVW : V ≤ W) :
    ((i + 1) * V - 1) / W =
      (if i * V % W + V ≤ W then i * V / W else i * V / W + 1) := by
  have hd : W * (i * V / W) + i * V % W = i * V := Nat.div_add_mod _ _
  have hm : i * V % W < W := Nat.mod_lt _ hW
  have hexp : (i + 1) * V = i * V + V := by ring
  have h1 : (i + 1) * V - 1 = W * (i * V / W) + (i * V % W + V - 1) := by omega
  by_cases hc : i * V % W + V ≤ W
  · have hz : (i * V % W + V - 1) / W = 0 := Nat.div_eq_of_lt (by omega)
    rw [h1, Nat.mul_add_div hW, hz, if_pos hc]
    omega
  · have ho : (i * V % W + V - 1) / W = 1 := Nat.div_eq_of_lt_le (by omega) (by omega)
    rw [h1, Nat.mul_add_div hW, ho, if_neg hc]

theorem start_index_lt (W V i : Nat) (hW : 0 < W) (hV : 0 < V) (len : Nat)
    (hlen : (i + 1) * V ≤ W * len) : i * V / W < len := by
  have hexp : (i + 1) * V = i * V + V := by ring
  have : i * V < W * len := by omega
  exact Nat.div_lt_of_lt_mul (by omega)

/-- `viewGet` reads exactly bits `[i*V, (i+1)*V)` of the backing buffer. -/
theorem viewGet_testBit (W V : Nat) (s : List Nat) (i t : Nat)
    (hW : 0 < W) (hV : 0 < V) (hVW : V ≤ W)
    (hwf : ∀ w ∈ s, w < 2 ^ W)
    (hlen : (i + 1) * V ≤ W * s.length) :
    (viewGet W V s i).testBit t = (decide (t < V) && bitOf W s (i * V + t)) := by
  have hd : W * (i * V / W) + i * V % W = i * V := Nat.div_add_mod _ _
  have hm : i * V % W < W := Nat.mod_lt _ hW
  have hk : i * V / W < s.length := start_index_lt W V i hW hV s.length hlen
  have hA : s.getD (i * V / W) 0 < 2 ^ W := hwf _ (getD_mem _ _ hk)
  by_cases ht : t < V
  · have hbw : i * V + t = W * (i * V / W) + (i * V % W + t) := by omega
    simp only [viewGet, end_index_eq W V i hW hV hVW]
    by_cases hc : i * V % W + V ≤ W
    · rw [if_pos hc, if_pos rfl]
      have hz : (i * V % W + t) / W = 0 := Nat.div_eq_of_lt (by omega)
      have hdiv : (W * (i * V / W) + (i * V % W + t)) / W = i * V / W := by
        rw [Nat.mul_add_div hW, hz]
        omega
      have hmod : (W * (i * V / W) + (i * V % W + t)) % W = i * V % W + t := by
        rw [Nat.mul_add_mod, Nat.mod_eq_of_lt (by omega)]
      rw [testBit_mask, Nat.testBit_shiftRight]
      simp only [bitOf, hbw, hdiv, hmod, ht]
      simp
    · rw [if_neg hc, if_neg (by omega)]
      rw [testBit_mask, Nat.testBit_lor, Nat.testBit_shiftRight, Nat.testBit_shiftLeft]
      by_cases ht2 : i * V % W + t < W
      · have hz : (i * V % W + t) / W = 0 := Nat.div_eq_of_lt (by omega)
        have hdiv : (W * (i * V / W) + (i * V % W + t)) / W = i * V / W := by
          rw [Nat.mul_add_div hW, hz]
          omega
        have hmod : (W * (i * V / W) + (i * V % W + t)) % W = i * V % W + t := by
          rw [Nat.mul_add_mod, Nat.mod_eq_of_lt (by omega)]
        have hge : ¬ (t ≥ W - i * V % W) := by omega
        simp only [bitOf, hbw, hdiv, hmod, hge]
        simp [ht]
      · have hb2 : W * (i * V / W) + (i * V % W + t) =
            W * (i * V / W + 1) + (i * V % W + t - W) := by ring_nf; omega
        have hz : (i * V % W + t - W) / W = 0 := Nat.div_eq_of_lt (by omega)
        have hdiv : (W * (i * V / W + 1) + (i * V % W + t - W)) / W = i * V / W + 1 := by
          rw [Nat.mul_add_div hW, hz]
        have hmod : (W * (i * V / W + 1) + (i * V % W + t - W)) % W =
            i * V % W + t - W := by
          rw [Nat.mul_add_mod, Nat.mod_eq_of_lt (by omega)]
        have hAbit : (s.getD (i * V / W) 0).testBit (i * V % W + t) = false :=
          Nat.testBit_lt_two_pow
            (lt_of_lt_of_le hA (Nat.pow_le_pow_right (by norm_num) (by omega)))
        have hge : t ≥ W - i * V % W := by omega
        have hsub : t - (W - i * V % W) = i * V % W + t - W := by omega
        simp only [bitOf, hbw, hb2, hdiv, hmod, hAbit, hsub]
        simp [ht, hge]
  · simp only [viewGet]
    split <;>
      simp [Nat.testBit_land, one_shiftLeft_eq, Nat.testBit_two_pow_sub_one, ht]

theorem div_mod_window (W V i t : Nat) (hW : 0 < W) (ht : i * V % W + t < W) :
    (i * V + t) / W = i * V / W ∧ (i * V + t) % W = i * V % W + t := by
  have hd : W * (i * V / W) + i * V % W = i * V := Nat.div_add_mod _ _
  have hbw : i * V + t = W * (i * V / W) + (i * V % W + t) := by omega
  have hz : (i * V % W + t) / W = 0 := Nat.div_eq_of_lt ht
  constructor
  · rw [hbw, Nat.mul_add_div hW, hz]
    omega
  · rw [hbw, Nat.mul_add_mod, Nat.mod_eq_of_lt ht]

theorem div_mod_window2 (W V i t : Nat) (hW : 0 < W) (h1 : W ≤ i * V % W + t)
    (h2 : i * V % W + t < 2 * W) :
    (i * V + t) / W = i * V / W + 1 ∧ (i * V + t) % W = i * V % W + t - W := by
  have hd : W * (i * V / W) + i * V % W = i * V := Nat.div_add_mod _ _
  have hKK : W * (i * V / W + 1) = W * (i * V / W) + W := by ring
  have hbw : i * V + t = W * (i * V / W + 1) + (i * V % W + t - W) := by omega
  have hz : (i * V % W + t - W) / W = 0 := Nat.div_eq_of_lt (by omega)
  constructor
  · rw [hbw, Nat.mul_add_div hW, hz]
  · rw [hbw, Nat.mul_add_mod, Nat.mod_eq_of_lt (by omega)]

theorem andNot_eq_ldiff (x y : Nat) : andNot x y = Nat.ldiff x y := by
  apply Nat.eq_of_testBit_eq
  intro i
  rw [andNot, Nat.testBit_xor, Nat.testBit_land, Nat.testBit_ldiff]
  cases x.testBit i <;> cases y.testBit i <;> rfl

/-- Bit `p` of the rewritten start word of `__setitem__`. -/
theorem w1_testBit (W V sbo x A p : Nat) (hp : p < W) :
    ((andNot A (((1 <<< V) - 1) <<< sbo) |||
        ((x &&& ((1 <<< V) - 1)) <<< sbo)) &&& ((1 <<< W) - 1)).testBit p =
      (if sbo ≤ p ∧ p - sbo < V then x.testBit (p - sbo) else A.testBit p) := by
  rw [andNot_eq_ldiff]
  simp only [one_shiftLeft_eq, Nat.testBit_land, Nat.testBit_lor, Nat.testBit_ldiff,
    Nat.testBit_shiftLeft, Nat.testBit_two_pow_sub_one]
  by_cases h1 : sbo ≤ p
  · by_cases h2 : p - sbo < V
    · rw [if_pos ⟨h1, h2⟩]
      simp [h1, h2, hp, ge_iff_le]
    · rw [if_neg (by omega)]
      simp [h1, h2, hp, ge_iff_le]
  · rw [if_neg (by omega)]
    simp [hp, ge_iff_le, h1]

/-- Bit `p` of the rewritten end word of `__setitem__` (straddling case, which
only succeeds with the backing width 64). -/
theorem w2_testBit (V sbo x B p : Nat) (h64 : 64 - sbo ≤ V) (hp : p < 64) :
    ((((B >>> (V - (64 - sbo))) <<< (V - (64 - sbo))) |||
        ((x &&& ((1 <<< V) - 1)) >>> (64 - sbo))) &&& ((1 <<< 64) - 1)).testBit p =
      (if p < V - (64 - sbo) then x.testBit (64 - sbo + p) else B.testBit p) := by
  simp only [one_shiftLeft_eq, Nat.testBit_land, Nat.testBit_lor, Nat.testBit_shiftLeft,
    Nat.testBit_shiftRight, Nat.testBit_two_pow_sub_one]
  by_cases hp1 : p < V - (64 - sbo)
  · rw [if_pos hp1]
    have hxy : 64 - sbo + p < V := by omega
    simp [hp, hp1, hxy, ge_iff_le, show ¬(V - (64 - sbo) ≤ p) from by omega]
  · rw [if_neg hp1]
    have heq : V - (64 - sbo) + (p - (V - (64 - sbo))) = p := by omega
    have hxy : ¬(64 - sbo + p < V) := by omega
    simp [hp, heq, hxy, ge_iff_le, show V - (64 - sbo) ≤ p from by omega]

theorem viewSet_some_length {W V : Nat} {s s2 : List Nat} {i x : Nat}
    (hset : viewSet W V s i x = some s2) : s2.length = s.length := by
  simp only [viewSet] at hset
  split at hset
  · cases hset
    simp
  · split at hset
    · cases hset
    · cases hset
      simp

theorem viewSet_wf {W V : Nat} {s s2 : List Nat} {i x : Nat}
    (hwf : ∀ w ∈ s, w < 2 ^ W) (hset : viewSet W V s i x = some s2) :
    ∀ w ∈ s2, w < 2 ^ W := by
  simp only [viewSet] at hset
  split at hset
  · cases hset
    intro w hw
    rcases List.mem_or_eq_of_mem_set hw with h | h
    · exact hwf w h
    · subst h
      exact mask_lt _ W
  · split at hset
    · cases hset
    · cases hset
      intro w hw
      rcases List.mem_or_eq_of_mem_set hw with h | h
      · rcases List.mem_or_eq_of_mem_set h with h2 | h2
        · exact hwf w h2
        · subst h2
          exact mask_lt _ W
      · subst h
        exact mask_lt _ W

/-- A successful `__setitem__` through a width-`V` view rewrites exactly the
bits `[i*V, (i+1)*V)` of the backing buffer with the low `V` bits of `value`,
leaving every other bit unchanged. -/
theorem viewSet_bits (W V : Nat) (s s2 : List Nat) (i x : Nat)
    (hW8 : W = 8 ∨ W = 32 ∨ W = 64)
    (hV : 0 < V) (hVW : V ≤ W)
    (hlen : (i + 1) * V ≤ W * s.length)
    (hset : viewSet W V s i x = some s2) :
    ∀ b, b / W < s.length →
      bitOf W s2 b =
        (if i * V ≤ b ∧ b < i * V + V then x.testBit (b - i * V) else bitOf W s b) := by
  have hW : 0 < W := by omega
  have hd : W * (i * V / W) + i * V % W = i * V := Nat.div_add_mod _ _
  have hm : i * V % W < W := Nat.mod_lt _ hW
  have hexp : (i + 1) * V = i * V + V := by ring
  have hk : i * V / W < s.length := start_index_lt W V i hW hV s.length hlen
  simp only [viewSet] at hset
  rw [end_index_eq W V i hW hV hVW] at hset
  by_cases hc : i * V % W + V ≤ W
  · rw [if_pos hc, if_pos rfl] at hset
    cases hset
    intro b hb
    have hbd : W * (b / W) + b % W = b := Nat.div_add_mod b W
    have hbm : b % W < W := Nat.mod_lt _ hW
    by_cases hj : b / W = i * V / W
    · rw [hj] at hbd
      rw [bitOf, hj, getD_set_self hk, w1_testBit W V _ x _ _ hbm]
      by_cases hin : i * V ≤ b ∧ b < i * V + V
      · rw [if_pos (by omega), if_pos hin]
        congr 1
        omega
      · rw [if_neg (by omega), if_neg hin, bitOf, hj]
    · rw [bitOf, getD_set_ne (fun h => hj h.symm)]
      have hnin : ¬(i * V ≤ b ∧ b < i * V + V) := by
        intro hin
        have h1 : i * V % W + (b - i * V) < W := by omega
        have h2 := (div_mod_window W V i (b - i * V) hW h1).1
        rw [show i * V + (b - i * V) = b from by omega] at h2
        exact hj h2
      rw [if_neg hnin, bitOf]
  · rw [if_neg hc, if_neg (by omega)] at hset
    by_cases hraise : V < 64 - i * V % W
    · rw [if_pos hraise] at hset
      cases hset
    · rw [if_neg hraise] at hset
      have hw64 : W = 64 := by omega
      subst hw64
      rw [getD_set_ne (by omega : i * V / 64 ≠ i * V / 64 + 1)] at hset
      cases hset
      intro b hb
      have hbd : 64 * (b / 64) + b % 64 = b := Nat.div_add_mod b 64
      have hbm : b % 64 < 64 := Nat.mod_lt _ hW
      have hKK : 64 * (i * V / 64 + 1) = 64 * (i * V / 64) + 64 := by ring
      have hk1 : i * V / 64 + 1 < s.length := by
        have : 64 * (i * V / 64 + 1) < 64 * s.length := by omega
        omega
      by_cases hj : b / 64 = i * V / 64
      · rw [hj] at hbd
        rw [bitOf, hj, getD_set_ne (by omega : i * V / 64 + 1 ≠ i * V / 64),
          getD_set_self hk, w1_testBit 64 V _ x _ _ hbm]
        by_cases hin : i * V ≤ b ∧ b < i * V + V
        · rw [if_pos (by omega), if_pos hin]
          congr 1
          omega
        · rw [if_neg (by omega), if_neg hin, bitOf, hj]
      · by_cases hj2 : b / 64 = i * V / 64 + 1
        · rw [hj2] at hbd
          rw [bitOf, hj2, getD_set_self (by rw [List.length_set]; exact hk1),
            w2_testBit V _ x _ _ (by omega) hbm]
          by_cases hp1 : b % 64 < V - (64 - i * V % 64)
          · rw [if_pos hp1, if_pos (by omega)]
            congr 1
            omega
          · rw [if_neg hp1, if_neg (by omega), bitOf, hj2]
        · rw [bitOf, getD_set_ne (fun h => hj2 h.symm), getD_set_ne (fun h => hj h.symm)]
          have hnin : ¬(i * V ≤ b ∧ b < i * V + V) := by
            intro hin
            by_cases h1 : i * V % 64 + (b - i * V) < 64
            · have h2 := (div_mod_window 64 V i (b - i * V) hW h1).1
              rw [show i * V + (b - i * V) = b from by omega] at h2
              exact hj h2
            · have h2 := (div_mod_window2 64 V i (b - i * V) hW (by omega) (by omega)).1
              rw [show i * V + (b - i * V) = b from by omega] at h2
              exact hj2 h2
          rw [if_neg hnin, bitOf]

theorem viewGet_lt (W V : Nat) (s : List Nat) (i : Nat) : viewGet W V s i < 2 ^ V := by
  simp only [viewGet]
  split <;> exact mask_lt _ V

/-- Reading back through a width-`V` view after a successful width-`V` write
returns the written value. -/
theorem viewSet_viewGet (W V : Nat) (s s2 : List Nat) (i x : Nat)
    (hW8 : W = 8 ∨ W = 32 ∨ W = 64) (hV : 0 < V) (hVW : V ≤ W)
    (hwf : ∀ w ∈ s, w < 2 ^ W)
    (hlen : (i + 1) * V ≤ W * s.length)
    (hx : x < 2 ^ V)
    (hset : viewSet W V s i x = some s2) :
    viewGet W V s2 i = x := by
  have hW : 0 < W := by omega
  have hlen2 : (i + 1) * V ≤ W * s2.length := by
    rw [viewSet_some_length hset]
    exact hlen
  have hwf2 := viewSet_wf hwf hset
  have hbits := viewSet_bits W V s s2 i x hW8 hV hVW hlen hset
  apply Nat.eq_of_testBit_eq
  intro t
  rw [viewGet_testBit W V s2 i t hW hV hVW hwf2 hlen2]
  by_cases ht : t < V
  · have hexp : (i + 1) * V = i * V + V := by ring
    have hblt : (i * V + t) / W < s.length := Nat.div_lt_of_lt_mul (by omega)
    rw [hbits (i * V + t) hblt, if_pos ⟨by omega, by omega⟩]
    simp [ht, show i * V + t - i * V = t from by omega]
  · have hxf : x.testBit t = false :=
      Nat.testBit_lt_two_pow (lt_of_lt_of_le hx (Nat.pow_le_pow_right (by norm_num) (by omega)))
    simp [ht, hxf]

/-! ## The array-tag object model: `__call__` views sharing the storage

`__call__` (nbt.py lines 328-345) builds an `ArrayView` subclass with
`virtual_width` set and constructs it with `self._storage`; `__init__`'s
`BitArray` branch stores that object itself (`self._storage = values`), so a
view and its owning array share one backing buffer. -/

structure ArrTag where
  width : Nat
  virtual_width : Option Nat
  storage : List Nat
deriving DecidableEq, Repr

/-- `_ArrayTag.__call__(dtype)` with an integer width `V`. -/
def ArrTag.call (a : ArrTag) (V : Nat) : ArrTag :=
  { a with virtual_width := some V }

/-- `_ArrayTag.__setitem__` dispatching on `virtual_width`. -/
def ArrTag.seti (a : ArrTag) (idx value : Nat) : Option ArrTag :=
  match a.virtual_width with
  | none => (nativeSet a.width a.storage idx value).map fun s => { a with storage := s }
  | some V => (viewSet a.width V a.storage idx value).map fun s => { a with storage := s }

/-- `_ArrayTag.__getitem__` dispatching on `virtual_width`. -/
def ArrTag.geti (a : ArrTag) (idx : Nat) : Nat :=
  match a.virtual_width with
  | none => nativeGet a.storage idx
  | some V => viewGet a.width V a.storage idx

/-! ## Supporting lemmas for `calcsize` / `pack_list` -/

theorem foldl_maxAbs_zero (l : List Int) (acc : Nat) (h : ∀ v ∈ l, v = 0) :
    l.foldl (fun a v => max a v.natAbs) acc = acc := by
  induction l generalizing acc with
  | nil => rfl
  | cons v tl ih =>
    have hv : v = 0 := h v (List.mem_cons_self _ _)
    have := ih acc (fun w hw => h w (List.mem_cons_of_mem _ hw))
    simp only [List.foldl_cons, hv]
    simpa using this

theorem foldl_max_toNat (rest : List Int) (acc : Int) (hacc : 0 ≤ acc)
    (hnn : ∀ v ∈ rest, 0 ≤ v) :
    (rest.foldl max acc).toNat = rest.foldl (fun a v => max a v.natAbs) acc.toNat := by
  induction rest generalizing acc with
  | nil => rfl
  | cons v tl ih =>
    simp only [List.foldl_cons]
    have hv : 0 ≤ v := hnn v (List.mem_cons_self _ _)
    rw [ih (max acc v) (le_trans hacc (le_max_left _ _))
      (fun w hw => hnn w (List.mem_cons_of_mem _ hw))]
    congr 1
    omega

theorem maxAbs_nonneg_eq (v : Int) (rest : List Int) (hnn : ∀ w ∈ v :: rest, 0 ≤ w) :
    maxAbs (v :: rest) = (rest.foldl max v).toNat := by
  have hv : 0 ≤ v := hnn v (List.mem_cons_self _ _)
  rw [maxAbs, List.foldl_cons, foldl_max_toNat rest v hv
    (fun w hw => hnn w (List.mem_cons_of_mem _ hw))]
  congr 1
  omega

theorem packListAux_length (W width : Nat) (values : List Int) :
    ∀ i s out, packListAux W width values i s = some out → out.length = s.length := by
  induction values with
  | nil =>
    intro i s out h
    cases h
    rfl
  | cons v tl ih =>
    intro i s out h
    simp only [packListAux, Option.bind_eq_bind, Option.bind] at h
    split at h
    · cases h
    · rename_i s' hs'
      rw [ih _ _ _ h, viewSet_some_length hs']

/-! ## Claim theorems: packed arrays -/

/-- C1: the packed-array set/get boundary property fails in the source. For
ByteArray (W = 8) and IntArray (W = 32) a write whose slot straddles two
backing words raises `ValueError: negative shift count`, because
`__setitem__` computes `end_offset = 64 - start_bit_offset` with a literal 64
instead of the backing width; only LongArray (W = 64) straddling writes
succeed and read back correctly. Shown here at ByteArray V = 5, i = 1,
v = 31 and IntArray V = 20, i = 1, v = 70000 (both `none`, i.e. raise),
against the working LongArray V = 5, i = 12, v = 21. -/
theorem c1_straddle_write_raises :
    viewSet 8 5 [0, 0] 1 31 = none ∧
    viewSet 32 20 [0, 0] 1 70000 = none ∧
    viewSet 64 5 [0, 0] 12 21 = some [5764607523034234880, 1] ∧
    viewGet 64 5 [5764607523034234880, 1] 12 = 21 := by
  decide

/-- C4 counterexample: `calcsize([4])` returns 2, but 2 bits cannot represent
the value 4 (`4 < 2 ^ 2` is false) — so the result is not "the minimum width
able to represent 4" as the claim states for exact powers of two. -/
theorem c4_counterexample : calcsize [4] = some 2 ∧ ¬(4 < 2 ^ 2) := by
  decide

/-- C4 (amended): for a non-empty list with maximum magnitude `m ≥ 1`,
`calcsize` returns `max(ceil(log2 m), 2)` plus one sign bit if any value is
negative, where `max(ceil(log2 m), 2)` is the least width `w ≥ 2` with
`m ≤ 2 ^ w` (values up to `m` fit only in the weak sense `m ≤ 2 ^ w`; for an
exact power of two `m = 2 ^ w` itself is not strictly representable). The
quoted examples hold: `calcsize [3] = 2`, `calcsize [-1] = 3`,
`calcsize [300] = 9`. -/
theorem c4_calcsize_amended (values : List Int) (hne : values ≠ [])
    (hm : 1 ≤ maxAbs values) :
    (∃ w0, calcsize values =
        some (w0 + (if values.any (fun v => v < 0) then 1 else 0)) ∧
      2 ≤ w0 ∧ maxAbs values ≤ 2 ^ w0 ∧
      (∀ u, 2 ≤ u → maxAbs values ≤ 2 ^ u → w0 ≤ u)) ∧
    calcsize [3] = some 2 ∧ calcsize [-1] = some 3 ∧ calcsize [300] = some 9 := by
  refine ⟨⟨max (ceilLog2 (maxAbs values)) 2, ?_, le_max_right _ _, ?_, ?_⟩,
    by decide, by decide, by decide⟩
  · cases values with
    | nil => exact absurd rfl hne
    | cons v rest =>
      simp only [calcsize]
      rw [if_neg (by omega)]
  · rw [ceilLog2_eq_clog]
    calc maxAbs values ≤ 2 ^ Nat.clog 2 (maxAbs values) := Nat.le_pow_clog one_lt_two _
    _ ≤ 2 ^ max (Nat.clog 2 (maxAbs values)) 2 :=
      Nat.pow_le_pow_right (by norm_num) (le_max_left _ _)
  · intro u h2 hu
    rw [ceilLog2_eq_clog]
    exact max_le ((Nat.le_pow_iff_clog_le one_lt_two).mp hu) h2

theorem c4_calcsize_amended_witness :
    (∃ w0, calcsize [300] =
        some (w0 + (if List.any [(300 : Int)] (fun v => v < 0) then 1 else 0)) ∧
      2 ≤ w0 ∧ maxAbs [300] ≤ 2 ^ w0 ∧
      (∀ u, 2 ≤ u → maxAbs [300] ≤ 2 ^ u → w0 ≤ u)) ∧
    calcsize [3] = some 2 ∧ calcsize [-1] = some 3 ∧ calcsize [300] = some 9 :=
  c4_calcsize_amended [300] (by decide) (by decide)

/-- C10: `calcsize` raises (modelled `none`) on the empty list, on the single
int 0, and on every input whose values are all zero, instead of returning the
minimum width 2. -/
theorem c10_calcsize_degenerate :
    calcsize [] = none ∧ calcsizeInt 0 = none ∧
    ∀ values : List Int, (∀ v ∈ values, v = 0) → calcsize values = none := by
  refine ⟨rfl, by decide, ?_⟩
  intro values hv
  cases values with
  | nil => rfl
  | cons v rest =>
    have hm : maxAbs (v :: rest) = 0 := by
      have h0 := hv v (List.mem_cons_self _ _)
      rw [maxAbs, List.foldl_cons,
        foldl_maxAbs_zero rest _ (fun w hw => hv w (List.mem_cons_of_mem _ hw))]
      omega
    simp only [calcsize]
    rw [if_pos hm]

theorem c10_calcsize_degenerate_witness :
    (∀ v ∈ [(0 : Int)], v = 0) ∧ calcsize [0] = none :=
  ⟨by decide, c10_calcsize_degenerate.2.2 [0] (by decide)⟩

/-- C7 counterexample: with a negative value present, the omitted-width
branch of `pack_list` (which takes `max(values)` with no `abs` and no sign
bit) differs from `calcsize`: for `[3, -1]` the omitted width is 2 and the
packed result is `[15]`, while `calcsize [3, -1] = 3` gives `[59]`. -/
theorem c7_counterexample :
    pack_list 64 [3, -1] none = some [15] ∧
    calcsize [3, -1] = some 3 ∧
    pack_list 64 [3, -1] (some 3) = some [59] ∧
    pack_list 64 [3, -1] none ≠ pack_list 64 [3, -1] (some 3) := by
  decide

/-- C7 (amended): for lists of non-negative values (the palette-index lists
this constructor is used for), the omitted-width result does equal
`pack_list(values, calcsize(values))`, and the allocation is
`ceil(len(values)*width / W)` backing words, each value written at its
virtual index. -/
theorem c7_omitted_width (W : Nat) (values : List Int) (w : Nat)
    (hnn : ∀ v ∈ values, 0 ≤ v) (hcs : calcsize values = some w) :
    pack_list W values none = pack_list W values (some w) ∧
    ∀ out, pack_list W values (some w) = some out →
      out.length = (values.length * w + (W - 1)) / W := by
  cases values with
  | nil => cases hcs
  | cons v rest =>
    have hany : (v :: rest).any (fun x => decide (x < 0)) = false := by
      rw [List.any_eq_false]
      intro x hx
      simpa using hnn x hx
    simp only [calcsize] at hcs
    by_cases hm : maxAbs (v :: rest) = 0
    · rw [if_pos hm] at hcs
      cases hcs
    · rw [if_neg hm, hany] at hcs
      simp only [Bool.false_eq_true, if_false, add_zero] at hcs
      have hw := Option.some.inj hcs
      have hfold : (v :: rest).max? = some (rest.foldl max v) := rfl
      have htn : (rest.foldl max v).toNat = maxAbs (v :: rest) :=
        (maxAbs_nonneg_eq v rest hnn).symm
      have hpos : ¬(rest.foldl max v ≤ 0) := by
        intro hle
        exact hm (by omega)
      constructor
      · have hcalc : packListWidth (v :: rest) = some w := by
          rw [packListWidth, hfold]
          simp only
          rw [if_neg hpos, htn]
          congr 1
          omega
        simp only [pack_list]
        rw [hcalc]
      · intro out hout
        simp only [pack_list] at hout
        rw [packListAux_length W w (v :: rest) 0 _ out hout]
        simp

theorem c7_omitted_width_witness :
    pack_list 64 [3, 1] none = pack_list 64 [3, 1] (some 2) ∧
    (∀ out, pack_list 64 [3, 1] (some 2) = some out →
      out.length = ([(3 : Int), 1].length * 2 + (64 - 1)) / 64) :=
  c7_omitted_width 64 [3, 1] 2 (by decide) (by decide)

/-- C8: a view created by `__call__` shares the owning array's storage
(`(a.call V).storage` is the very storage of `a`, not a copy); after a
successful write through the view, a width-`V` read of the shared buffer at
the same index — i.e. the value observable through the original array handle
— is the written value; and a native write through the original array
likewise lands in the buffer any view of it reads. -/
theorem c8_view_aliasing (a : ArrTag) (V i x : Nat) (v2 : ArrTag)
    (hkind : a.width = 8 ∨ a.width = 32 ∨ a.width = 64)
    (hbase : a.virtual_width = none)
    (hwf : ∀ w ∈ a.storage, w < 2 ^ a.width)
    (hV : 0 < V) (hVW : V ≤ a.width)
    (hrange : (i + 1) * V ≤ a.width * a.storage.length)
    (hx : x < 2 ^ V)
    (hset : (a.call V).seti i x = some v2) :
    (a.call V).storage = a.storage ∧
    viewGet a.width V v2.storage i = x ∧
    ∀ k w s3, nativeSet a.width a.storage k w = some s3 →
      ({ a with storage := s3 }.call V).storage = s3 := by
  have hset2 : viewSet a.width V a.storage i x = some v2.storage := by
    simp only [ArrTag.seti, ArrTag.call] at hset
    cases hv : viewSet a.width V a.storage i x with
    | none =>
      rw [hv] at hset
      cases hset
    | some snew =>
      rw [hv] at hset
      cases hset
      rfl
  exact ⟨rfl, viewSet_viewGet a.width V a.storage v2.storage i x hkind hV hVW hwf
    hrange hx hset2, fun k w s3 _ => rfl⟩

theorem c8_view_aliasing_witness :
    ((⟨64, none, [0, 0]⟩ : ArrTag).call 5).storage = [0, 0] ∧
    viewGet 64 5 [5764607523034234880, 1] 12 = 21 ∧
    ∀ k w s3, nativeSet 64 [0, 0] k w = some s3 →
      (({ (⟨64, none, [0, 0]⟩ : ArrTag) with storage := s3 }).call 5).storage = s3 :=
  c8_view_aliasing ⟨64, none, [0, 0]⟩ 5 12 21 ⟨64, some 5, [5764607523034234880, 1]⟩
    (by decide) rfl (by decide) (by decide) (by decide) (by decide) (by decide) (by decide)

/-! ## Binary codec: bytes, UTF-8, tags (nbt.py)

Bytes are modelled as `List Nat` (each element one byte). Strings are lists
of Unicode scalar values (`List Char`). Float/Double tags carry their raw
IEEE bit pattern as a `Nat`; their numeric interpretation is not modelled. -/

/-- `count` big-endian bytes of `n`. -/
def beBytes : Nat → Nat → List Nat
  | 0, _ => []
  | c + 1, n => beBytes c (n >>> 8) ++ [n &&& 255]

/-- Big-endian unsigned value of a byte list. -/
def beVal (bytes : List Nat) : Nat := bytes.foldl (fun acc x => acc * 256 + x) 0

/-- Two's-complement interpretation of a `w`-bit word. -/
def toSigned (w n : Nat) : Int := if n < 2 ^ (w - 1) then (n : Int) else (n : Int) - 2 ^ w

/-- Big-endian signed encode of `intbeW` (`Dtype(...).build` raises when the
value is out of the signed range). -/
def beSigned (w : Nat) (v : Int) : Option (List Nat) :=
  if -(2 ^ (w - 1) : Int) ≤ v ∧ v < 2 ^ (w - 1) then
    some (beBytes (w / 8) (v % ((2 : Int) ^ w)).toNat)
  else none

def utf8EncodeChar (c : Char) : List Nat :=
  let n := c.toNat
  if n < 0x80 then [n]
  else if n < 0x800 then [0xC0 ||| (n >>> 6), 0x80 ||| (n &&& 0x3F)]
  else if n < 0x10000 then
    [0xE0 ||| (n >>> 12), 0x80 ||| ((n >>> 6) &&& 0x3F), 0x80 ||| (n &&& 0x3F)]
  else
    [0xF0 ||| (n >>> 18), 0x80 ||| ((n >>> 12) &&& 0x3F),
      0x80 ||| ((n >>> 6) &&& 0x3F), 0x80 ||| (n &&& 0x3F)]

def utf8Encode (s : List Char) : List Nat := s.foldr (fun c acc => utf8EncodeChar c ++ acc) []

def isCont (b : Nat) : Bool := 0x80 ≤ b && b < 0xC0

/-- Strict UTF-8 decoding, as Python `bytes.decode("utf8")`: rejects stray
continuation bytes, truncated sequences, overlong forms and surrogates
(`none` = `UnicodeDecodeError`). -/
def utf8Decode : List Nat → Option (List Char)
  | [] => some []
  | b0 :: rest =>
    if b0 < 0x80 then (utf8Decode rest).map (Char.ofNat b0 :: ·)
    else if b0 < 0xC2 then none
    else if b0 < 0xE0 then
      match rest with
      | b1 :: rest2 =>
        if isCont b1 then
          (utf8Decode rest2).map (Char.ofNat (((b0 - 0xC0) <<< 6) + (b1 - 0x80)) :: ·)
        else none
      | _ => none
    else if b0 < 0xF0 then
      match rest with
      | b1 :: b2 :: rest2 =>
        let n := ((b0 - 0xE0) <<< 12) + ((b1 - 0x80) <<< 6) + (b2 - 0x80)
        if isCont b1 && isCont b2 && decide (0x800 ≤ n) &&
            !(decide (0xD800 ≤ n) && decide (n < 0xE000)) then
          (utf8Decode rest2).map (Char.ofNat n :: ·)
        else none
      | _ => none
    else if b0 < 0xF5 then
      match rest with
      | b1 :: b2 :: b3 :: rest2 =>
        let n := ((b0 - 0xF0) <<< 18) + ((b1 - 0x80) <<< 12) + ((b2 - 0x80) <<< 6) + (b3 - 0x80)
        if isCont b1 && isCont b2 && isCont b3 &&
            decide (0x10000 ≤ n) && decide (n < 0x110000) then
          (utf8Decode rest2).map (Char.ofNat n :: ·)
        else none
      | _ => none
    else none

/-- `String.to_bytes` (nbt.py lines 369-373): `Bits(uintbe16=len(self))`
followed by the UTF-8 bytes. Note the 2-byte prefix is `len(self)` — the
number of CODE POINTS of the Python str, not the number of UTF-8 bytes.
`Bits(uintbe16=...)` raises when the length does not fit 16 bits. -/
def strToBytes (s : List Char) : Option (List Nat) :=
  if s.length < 65536 then some (beBytes 2 s.length ++ utf8Encode s) else none

/-- `String.from_buff` (nbt.py lines 363-367): read a 2-byte big-endian
length, then that many bytes, then decode them as UTF-8. -/
def strFromBuff (b : List Nat) : Option (List Char × List Nat) :=
  match b with
  | n1 :: n0 :: rest =>
    let len := n1 * 256 + n0
    if rest.length < len then none
    else (utf8Decode (rest.take len)).map (fun s => (s, rest.drop len))
  | _ => none

/-- `String.from_bytes`: `from_buff` on the whole byte string (leftover bytes
are ignored). -/
def strFromBytes (b : List Nat) : Option (List Char) := (strFromBuff b).map Prod.fst

/-- The binary tag tree. Arrays carry their backing words; Float/Double
carry raw IEEE bit patterns (numeric value not modelled); Compound is the
insertion-ordered key/value list of a Python dict. -/
inductive BTag where
  | byte (v : Int)
  | short (v : Int)
  | int (v : Int)
  | long (v : Int)
  | float (bits : Nat)
  | double (bits : Nat)
  | byteArray (storage : List Nat)
  | string (s : List Char)
  | list (items : List BTag)
  | compound (entries : List (List Char × BTag))
  | intArray (storage : List Nat)
  | longArray (storage : List Nat)

/-- The discriminators bound by the `@register_tag_type(...)` decorators. -/
def tagTypeId : BTag → Nat
  | .byte _ => 1
  | .short _ => 2
  | .int _ => 3
  | .long _ => 4
  | .float _ => 5
  | .double _ => 6
  | .byteArray _ => 7
  | .string _ => 8
  | .list _ => 9
  | .compound _ => 10
  | .intArray _ => 11
  | .longArray _ => 12

/-- `id in tag_type_registry`: at import time exactly ids 1-12 are bound. -/
def registered (id : Int) : Bool := 1 ≤ id && id ≤ 12

/-- Python dict assignment `d[key] = v`: replaces in place if the key exists,
appends otherwise. -/
def upsert (acc : List (List Char × BTag)) (k : List Char) (v : BTag) :
    List (List Char × BTag) :=
  match acc with
  | [] => [(k, v)]
  | (k0, v0) :: rest => if k0 = k then (k0, v) :: rest else (k0, v0) :: upsert rest k v

/-- `List.__init__` is inherited from Python's `list` (nbt.py lines 379-401
define no `__init__` and no element validation): constructing a `List` tag
never inspects the element kinds. The `Except` result shows where a
structural error would surface if one were raised — none is. -/
def mkList (xs : List BTag) : Except String BTag := Except.ok (BTag.list xs)

/-- `_ArrayTag.to_bytes`: 4-byte element count, then the words big-endian. -/
def encodeArr (bpw : Nat) (st : List Nat) : Option (List Nat) :=
  if st.length < 2 ^ 32 ∧ ∀ w ∈ st, w < 2 ^ (8 * bpw) then
    some (beBytes 4 st.length ++ st.foldr (fun w acc => beBytes bpw w ++ acc) [])
  else none

mutual

/-- `to_bytes` of each tag kind. `beSigned` models the `Dtype.build` range
check; string encode per `strToBytes`; arrays: 4-byte element count then the
backing words big-endian (`bpw` bytes per word). -/
def encodeTag : BTag → Option (List Nat)
  | .byte v => beSigned 8 v
  | .short v => beSigned 16 v
  | .int v => beSigned 32 v
  | .long v => beSigned 64 v
  | .float bits => if bits < 2 ^ 32 then some (beBytes 4 bits) else none
  | .double bits => if bits < 2 ^ 64 then some (beBytes 8 bits) else none
  | .byteArray st => encodeArr 1 st
  | .intArray st => encodeArr 4 st
  | .longArray st => encodeArr 8 st
  | .string s => strToBytes s
  | .list items =>
    if items.length < 2 ^ 32 then
      (encodeItems items).map (fun body =>
        beBytes 1 (match items with | [] => 0 | t :: _ => tagTypeId t) ++
          beBytes 4 items.length ++ body)
    else none
  | .compound entries => (encodeEntries entries).map (· ++ [0])

def encodeItems : List BTag → Option (List Nat)
  | [] => some []
  | t :: ts => do
    let b ← encodeTag t
    let bs ← encodeItems ts
    some (b ++ bs)

def encodeEntries : List (List Char × BTag) → Option (List Nat)
  | [] => some []
  | (k, v) :: ts => do
    let vb ← encodeTag v
    let kb ← strToBytes k
    let tb ← encodeEntries ts
    some (beBytes 1 (tagTypeId v) ++ kb ++ vb ++ tb)

end

/-- Split the first `n` bytes off (bitstring `read` raises past the end). -/
def readBytes (n : Nat) (b : List Nat) : Option (List Nat × List Nat) :=
  if b.length < n then none else some (b.take n, b.drop n)

/-- Group `bs` into words of `bpw` bytes, big-endian (the fuel is the byte
count, always supplied as `bs.length`). -/
def chunkWords (bpw : Nat) : Nat → List Nat → List Nat
  | 0, _ => []
  | _, [] => []
  | f + 1, bs => beVal (bs.take bpw) :: chunkWords bpw f (bs.drop bpw)

/-- `_ArrayTag.from_buff`: unsigned 4-byte element count, then
`count * W` bits of data. -/
def decodeArr (bpw : Nat) (b : List Nat) : Option (BTag × List Nat) := do
  let (lenB, r1) ← readBytes 4 b
  let (dataB, r2) ← readBytes (beVal lenB * bpw) r1
  some (match bpw with
    | 1 => BTag.byteArray (chunkWords 1 dataB.length dataB)
    | 4 => BTag.intArray (chunkWords 4 dataB.length dataB)
    | _ => BTag.longArray (chunkWords 8 dataB.length dataB), r2)

mutual

/-- Decoding the body of a tag with discriminator `id` (already read).
`fuel` bounds the recursion and loop steps of `Compound.from_buff` and
`List.from_buff`; every theorem either quantifies over it or supplies a
concrete input with ample fuel. -/
def decodeTagBody (fuel : Nat) (id : Int) (b : List Nat) : Option (BTag × List Nat) :=
  match fuel with
  | 0 => none
  | f + 1 =>
    if id = 1 then
      (readBytes 1 b).map (fun p => (BTag.byte (toSigned 8 (beVal p.1)), p.2))
    else if id = 2 then
      (readBytes 2 b).map (fun p => (BTag.short (toSigned 16 (beVal p.1)), p.2))
    else if id = 3 then
      (readBytes 4 b).map (fun p => (BTag.int (toSigned 32 (beVal p.1)), p.2))
    else if id = 4 then
      (readBytes 8 b).map (fun p => (BTag.long (toSigned 64 (beVal p.1)), p.2))
    else if id = 5 then
      (readBytes 4 b).map (fun p => (BTag.float (beVal p.1), p.2))
    else if id = 6 then
      (readBytes 8 b).map (fun p => (BTag.double (beVal p.1), p.2))
    else if id = 7 then
      decodeArr 1 b
    else if id = 8 then
      (strFromBuff b).map (fun p => (BTag.string p.1, p.2))
    else if id = 9 then
      -- List.from_buff: readlist(["intbe8", "intbe32"]); id 0 means empty
      match readBytes 5 b with
      | none => none
      | some (hdr, rest) =>
        let itemId := toSigned 8 (beVal (hdr.take 1))
        let count := toSigned 32 (beVal (hdr.drop 1))
        if itemId = 0 then some (BTag.list [], rest)
        else if registered itemId then
          (decodeItems f itemId count.toNat rest).map (fun p => (BTag.list p.1, p.2))
        else none
    else if id = 10 then
      (decodeEntriesLoop f [] b).map (fun p => (BTag.compound p.1, p.2))
    else if id = 11 then
      decodeArr 4 b
    else if id = 12 then
      decodeArr 8 b
    else none

/-- The `[item_tag_type.from_buff(buff) for _ in range(list_length)]`
comprehension. -/
def decodeItems (fuel : Nat) (id : Int) (n : Nat) (b : List Nat) :
    Option (List BTag × List Nat) :=
  match fuel with
  | 0 => none
  | f + 1 =>
    match n with
    | 0 => some ([], b)
    | n + 1 => do
      let (t, r) ← decodeTagBody f id b
      let (ts, r2) ← decodeItems f id n r
      some (t :: ts, r2)

/-- The `while True` loop of `Compound.from_buff` (nbt.py lines 414-430):
stop at end-of-stream or on a 0x00 kind byte; an unregistered kind raises
`ValueError` (`none`); otherwise read key (as a String), then the value by
the kind's decoder, and bind it in the dict. -/
def decodeEntriesLoop (fuel : Nat) (acc : List (List Char × BTag)) (b : List Nat) :
    Option (List (List Char × BTag) × List Nat) :=
  match fuel with
  | 0 => none
  | f + 1 =>
    match b with
    | [] => some (acc, [])
    | idByte :: rest =>
      let id := toSigned 8 idByte
      if id = 0 then some (acc, rest)
      else if registered id then do
        let (k, r1) ← strFromBuff rest
        let (v, r2) ← decodeTagBody f id r1
        decodeEntriesLoop f (upsert acc k v) r2
      else none

end

/-- `Named.from_bytes`: `Compound.from_buff` over the whole stream, then
`Named.__init__` requires exactly one key whose value is a Compound (more
keys: explicit `ValueError`; zero keys: the `self.name, =` unpacking raises;
a non-dict value: `dict.__init__` raises). -/
def decodeNamed (b : List Nat) : Option (List Char × List (List Char × BTag)) :=
  match decodeEntriesLoop (b.length + 1) [] b with
  | none => none
  | some (entries, _) =>
    match entries with
    | [(name, BTag.compound inner)] => some (name, inner)
    | _ => none

/-! ## Claim theorems: binary codec -/

/-- C3: `String.to_bytes` writes `len(self)` — the code-point count — as the
2-byte prefix, not the UTF-8 byte count the claim (and spec section 4.2)
require. For `String("é")` the prefix is 1 while 2 UTF-8 bytes follow, and
`String.from_bytes(String("é").to_bytes())` fails with a
`UnicodeDecodeError` (the decoder reads 1 byte, `0xC3`, a truncated
sequence) instead of returning the string. -/
theorem c3_string_length_is_code_points :
    strToBytes ['é'] = some [0, 1, 195, 169] ∧
    (utf8Encode ['é']).length = 2 ∧
    (strToBytes ['é']).bind strFromBytes = none :=
  ⟨rfl, rfl, rfl⟩

/-- C5 counterexample: constructing a List from elements of different kinds
does not fail — `List.__init__` is inherited from `list` and performs no
validation, so `List([Byte(1), Int(2)])` is the claim's structural error
made impossible: construction returns the mixed list. -/
theorem c5_counterexample :
    mkList [BTag.byte 1, BTag.int 2] = Except.ok (BTag.list [BTag.byte 1, BTag.int 2]) :=
  rfl

/-- C5 (amended): mixed-kind List construction is accepted — no structural
check exists at construction time, and `to_bytes` does not detect the
mixture either: it emits the first element's discriminator (here 1, Byte)
followed by each element's own encoding (1 byte for Byte(1), then 4 bytes
for Int(2)). -/
theorem c5_no_mixed_kind_check :
    mkList [BTag.byte 1, BTag.int 2] = Except.ok (BTag.list [BTag.byte 1, BTag.int 2]) ∧
    encodeTag (BTag.list [BTag.byte 1, BTag.int 2]) =
      some [1, 0, 0, 0, 2, 1, 0, 0, 0, 2] :=
  ⟨rfl, rfl⟩

/-- C6: decoding the fixture `0x0a 00 00 08 00 03 "foo" 00 03 "bar" 00` as a
named root yields the Named tag with empty name containing
`{"foo": String("bar")}`; and the Compound entry loop returns (consuming the
byte) when it reads a 0x00 kind byte, and returns at end-of-stream, whichever
comes first. -/
theorem c6_compound_decoding :
    decodeNamed [0x0a, 0x00, 0x00, 0x08, 0x00, 0x03, 102, 111, 111,
        0x00, 0x03, 98, 97, 114, 0x00] =
      some (([] : List Char), [(['f', 'o', 'o'], BTag.string ['b', 'a', 'r'])]) ∧
    (∀ (f : Nat) (acc : List (List Char × BTag)) (rest : List Nat),
      decodeEntriesLoop (f + 1) acc (0 :: rest) = some (acc, rest)) ∧
    (∀ (f : Nat) (acc : List (List Char × BTag)),
      decodeEntriesLoop (f + 1) acc [] = some (acc, [])) :=
  ⟨rfl, fun _ _ _ => rfl, fun _ _ => rfl⟩

/-- C9: a Compound entry whose kind byte is not bound in the registry (and is
not the 0x00 end sentinel) makes the whole decode of the stream fail —
`decodeEntriesLoop` returns the error, never a partial dict; in particular
the test fixture `0x0a 00 00 0xa3 00 03 "foo"` fails as a named root. -/
theorem c9_unknown_tag_kind (f : Nat) (acc : List (List Char × BTag))
    (idByte : Nat) (rest : List Nat)
    (hbyte : idByte < 256) (h0 : idByte ≠ 0)
    (hreg : registered (toSigned 8 idByte) = false) :
    decodeEntriesLoop (f + 1) acc (idByte :: rest) = none ∧
    decodeNamed [0x0a, 0x00, 0x00, 0xa3, 0x00, 0x03, 102, 111, 111] = none := by
  constructor
  · have hid : ¬(toSigned 8 idByte = 0) := by
      rw [toSigned]
      split <;> omega
    simp only [decodeEntriesLoop]
    rw [if_neg hid, hreg]
    rfl
  · rfl

theorem c9_unknown_tag_kind_witness :
    decodeEntriesLoop 4 [] (163 :: []) = none ∧
    decodeNamed [0x0a, 0x00, 0x00, 0xa3, 0x00, 0x03, 102, 111, 111] = none :=
  c9_unknown_tag_kind 3 [] 163 [] (by decide) (by decide) (by decide)

/-! ## SNBT textual grammar (snbt.py)

The tag fragment embedded here covers Byte, Short, Int, Long, String,
ByteArray, IntArray, LongArray, List and Compound. Float and Double values
are outside the fragment: their text form is Python's host float formatting
and their construction converts text to a host float, neither of which is
modelled — the grammar's Float/Double BRANCHES are modelled (they matter for
alternative ordering), carrying the raw matched literal.

pyparsing's between-token whitespace skipping is not modelled: the serializer
emits no whitespace and every input considered here contains none.
`parse_string` is called without `parseAll`, so trailing text is ignored. -/

/-- The constructible tag fragment. Array tags store their backing `uint W`
elements (a `bitstring` array refuses negatives and overflow on
construction, so these are the only constructible values). -/
inductive STag where
  | byte (v : Int)
  | short (v : Int)
  | int (v : Int)
  | long (v : Int)
  | str (s : List Char)
  | byteArr (vs : List Nat)
  | intArr (vs : List Nat)
  | longArr (vs : List Nat)
  | list (xs : List STag)
  | compound (kvs : List (List Char × STag))

/-- The `(tag_type, raw_value)` pairs the grammar's parse actions build
bottom-up, before `make_tag`. Float/Double carry the raw matched literal. -/
inductive PTag where
  | pbyte (v : Int)
  | pshort (v : Int)
  | pint (v : Int)
  | plong (v : Int)
  | pfloat (raw : List Char)
  | pdouble (raw : List Char)
  | pstr (s : List Char)
  | pbyteArr (vs : List Int)
  | pintArr (vs : List Int)
  | plongArr (vs : List Int)
  | plist (xs : List PTag)
  | pcompound (kvs : List (List Char × PTag))

/-! ### Serializer: `to_snbt` (snbt.py lines 61-96) -/

/-- Decimal digits of `n`, least significant first (fuel = `n` suffices). -/
def natDigitsRev (fuel n : Nat) : List Nat :=
  match fuel with
  | 0 => []
  | f + 1 => if n = 0 then [] else n % 10 :: natDigitsRev f (n / 10)

/-- Python `str(n)` for a natural number. -/
def natChars (n : Nat) : List Char :=
  if n = 0 then ['0'] else ((natDigitsRev n n).reverse).map (fun d => Char.ofNat (48 + d))

/-- Python `str(v)` for an int. -/
def intChars (v : Int) : List Char :=
  if v < 0 then '-' :: natChars v.natAbs else natChars v.toNat

def hexDigit (n : Nat) : Char :=
  if n < 10 then Char.ofNat (48 + n) else if n < 16 then Char.ofNat (87 + n) else '0'

/-- A `\uXXXX` escape. -/
def uEsc (n : Nat) : List Char :=
  ['\\', 'u', hexDigit (n / 4096 % 16), hexDigit (n / 256 % 16),
    hexDigit (n / 16 % 16), hexDigit (n % 16)]

/-- `json.dumps` escaping of one character (default `ensure_ascii=True`:
everything outside printable ASCII is escaped; `\b \t \n \f \r \" \\` use
their short forms). -/
def jsonEscChar (c : Char) : List Char :=
  if c = '"' then ['\\', '"']
  else if c = '\\' then ['\\', '\\']
  else if c = Char.ofNat 8 then ['\\', 'b']
  else if c = Char.ofNat 9 then ['\\', 't']
  else if c = Char.ofNat 10 then ['\\', 'n']
  else if c = Char.ofNat 12 then ['\\', 'f']
  else if c = Char.ofNat 13 then ['\\', 'r']
  else if c.toNat < 0x20 then uEsc c.toNat
  else if c.toNat < 0x7F then [c]
  else if c.toNat < 0x10000 then uEsc c.toNat
  else uEsc (0xD800 + (c.toNat - 0x10000) / 1024) ++ uEsc (0xDC00 + (c.toNat - 0x10000) % 1024)

def escBody (s : List Char) : List Char := s.foldr (fun c acc => jsonEscChar c ++ acc) []

/-- `json.dumps` of a string. -/
def jsonDumps (s : List Char) : List Char := '"' :: escBody s ++ ['"']

/-- `pp.alphanums + "_-.+"`, the unquoted compound-key alphabet (ASCII
letters and digits plus the four punctuation characters). -/
def isKeyChar (c : Char) : Bool :=
  (48 ≤ c.toNat && c.toNat ≤ 57) || (65 ≤ c.toNat && c.toNat ≤ 90) ||
    (97 ≤ c.toNat && c.toNat ≤ 122) || c = '_' || c = '-' || c = '.' || c = '+'

/-- `key_to_snbt` inside `to_snbt`: quote exactly when some character falls
outside the unquoted-key alphabet (the empty key stays unquoted). -/
def keyToSnbt (k : List Char) : List Char :=
  if k.any (fun c => !(isKeyChar c)) then jsonDumps k else k

def joinComma : List (List Char) → List Char
  | [] => []
  | [x] => x
  | x :: rest => x ++ ',' :: joinComma rest

mutual

/-- `to_snbt` over the embedded fragment: suffixed integer literals, JSON
strings, `[B;..]`/`[I;..]`/`[L;..]` arrays (IntArray elements unsuffixed),
bracketed lists, braced compounds. -/
def toSnbt : STag → List Char
  | .byte v => intChars v ++ ['B']
  | .short v => intChars v ++ ['S']
  | .int v => intChars v
  | .long v => intChars v ++ ['L']
  | .str s => jsonDumps s
  | .byteArr vs => '[' :: 'B' :: ';' :: joinComma (vs.map (fun n => natChars n ++ ['B'])) ++ [']']
  | .intArr vs => '[' :: 'I' :: ';' :: joinComma (vs.map natChars) ++ [']']
  | .longArr vs => '[' :: 'L' :: ';' :: joinComma (vs.map (fun n => natChars n ++ ['L'])) ++ [']']
  | .list xs => '[' :: joinComma (toSnbtList xs) ++ [']']
  | .compound kvs => '{' :: joinComma (toSnbtEntries kvs) ++ ['}']

def toSnbtList : List STag → List (List Char)
  | [] => []
  | t :: ts => toSnbt t :: toSnbtList ts

def toSnbtEntries : List (List Char × STag) → List (List Char)
  | [] => []
  | (k, v) :: rest => (keyToSnbt k ++ ':' :: toSnbt v) :: toSnbtEntries rest

end

/-! ### Parser: the pyparsing grammar (snbt.py lines 10-45) -/

/-- A recursive-descent parsing function: input to parsed value + rest. -/
abbrev Pars (α : Type) := List Char → Option (α × List Char)

/-- ASCII decimal digit (`pp.nums`, regex `\d`). -/
def isDigitC (c : Char) : Bool := 48 ≤ c.toNat && c.toNat ≤ 57

/-- Whether the input starts with the character `c`. -/
def headIs (c : Char) (l : List Char) : Bool :=
  match l with
  | x :: _ => x = c
  | [] => false

/-- One or more decimal digits, maximal munch (`pp.Word(pp.nums)` and the
`\d+` core of the numeric regexes). -/
def pDigits : Pars (List Char) := fun inp =>
  let ds := inp.takeWhile isDigitC
  if ds.isEmpty then none else some (ds, inp.drop ds.length)

def digitsVal (ds : List Char) : Nat := ds.foldl (fun acc c => acc * 10 + (c.toNat - 48)) 0

/-- `ppc.signed_integer` (regex `[+-]?\d+`, parse action `int`). -/
def pSignedInt : Pars Int := fun inp =>
  if headIs '-' inp then (pDigits (inp.drop 1)).map (fun p => (-(digitsVal p.1 : Int), p.2))
  else if headIs '+' inp then (pDigits (inp.drop 1)).map (fun p => ((digitsVal p.1 : Int), p.2))
  else (pDigits inp).map (fun p => ((digitsVal p.1 : Int), p.2))

/-- `ppc.fnumber` (regex `[+-]?\d+\.?\d*([eE][+-]?\d+)?`), kept as the raw
matched text (its float conversion is outside the modelled fragment). -/
def pFnumberRaw : Pars (List Char) := fun inp =>
  let sg : List Char × List Char :=
    if headIs '-' inp then (['-'], inp.drop 1)
    else if headIs '+' inp then (['+'], inp.drop 1)
    else ([], inp)
  match pDigits sg.2 with
  | none => none
  | some (ds, r1) =>
    let fr : List Char × List Char :=
      if headIs '.' r1 then
        ('.' :: (r1.drop 1).takeWhile isDigitC,
          (r1.drop 1).drop ((r1.drop 1).takeWhile isDigitC).length)
      else ([], r1)
    let ex : List Char × List Char :=
      if headIs 'e' fr.2 || headIs 'E' fr.2 then
        let rr := fr.2.drop 1
        let es : List Char × List Char :=
          if headIs '-' rr then (['-'], rr.drop 1)
          else if headIs '+' rr then (['+'], rr.drop 1)
          else ([], rr)
        let xs := es.2.takeWhile isDigitC
        if xs.isEmpty then ([], fr.2)
        else (fr.2.headD 'e' :: es.1 ++ xs, es.2.drop xs.length)
      else ([], fr.2)
    some (sg.1 ++ ds ++ fr.1 ++ ex.1, ex.2)

/-- A case-insensitive one-letter suffix (`pp.CaselessLiteral`). -/
def pSuffix (upper lower : Char) : Pars Unit := fun inp =>
  if headIs upper inp || headIs lower inp then some ((), inp.drop 1) else none

/-- The body scan of `pp.quoted_string` after the opening quote `q`:
backslash-escaped pairs pass through raw; a bare `q` closes; a bare newline
or end of input fails. Returns the body without the closing quote. -/
def scanQ (q : Char) : List Char → Option (List Char × List Char)
  | [] => none
  | c :: rest =>
    if c = '\\' then
      match rest with
      | [] => none
      | c2 :: rest2 => (scanQ q rest2).map (fun p => ('\\' :: c2 :: p.1, p.2))
    else if c = q then some ([], rest)
    else if c = Char.ofNat 10 ∨ c = Char.ofNat 13 then none
    else (scanQ q rest).map (fun p => (c :: p.1, p.2))

/-- `pp.quoted_string`: a single- or double-quoted token, returned WITH its
quotes (parse actions receive the token text). -/
def pQuotedToken : Pars (List Char) := fun inp =>
  if headIs '"' inp || headIs '\'' inp then
    (scanQ (inp.headD '"') (inp.drop 1)).map (fun p => (inp.headD '"' :: p.1 ++ [inp.headD '"'], p.2))
  else none

def hexVal (c : Char) : Option Nat :=
  if c.isDigit then some (c.toNat - 48)
  else if 'a' ≤ c ∧ c ≤ 'f' then some (c.toNat - 87)
  else if 'A' ≤ c ∧ c ≤ 'F' then some (c.toNat - 55)
  else none

def jsonEscMap (e : Char) : Option Char :=
  if e = '"' then some '"'
  else if e = '\\' then some '\\'
  else if e = '/' then some '/'
  else if e = 'b' then some (Char.ofNat 8)
  else if e = 'f' then some (Char.ofNat 12)
  else if e = 'n' then some (Char.ofNat 10)
  else if e = 'r' then some (Char.ofNat 13)
  else if e = 't' then some (Char.ofNat 9)
  else none

/-- The low-surrogate continuation of a `\uXXXX` escape: the input must be
another `\uYYYY` with `Y` in the low-surrogate range, which combines with
the high surrogate `n` into one astral character. `k` is the continuation
unescaping the remaining input. -/
def unescSur (k : List Char → Option (List Char)) (n : Nat) (rest3 : List Char) :
    Option (List Char) :=
  match rest3 with
  | '\\' :: 'u' :: g1 :: g2 :: g3 :: g4 :: rest4 =>
    match hexVal g1, hexVal g2, hexVal g3, hexVal g4 with
    | some m1, some m2, some m3, some m4 =>
      let m := m1 * 4096 + m2 * 256 + m3 * 16 + m4
      if 0xDC00 ≤ m ∧ m < 0xE000 then
        (k rest4).map (Char.ofNat (0x10000 + (n - 0xD800) * 1024 + (m - 0xDC00)) :: ·)
      else none
    | _, _, _, _ => none
  | _ => none

/-- A `\uXXXX` escape body (after the `\u`): four hex digits; a high
surrogate must pair via `unescSur`, a lone low surrogate is refused. -/
def unescU (k : List Char → Option (List Char)) (rest2 : List Char) : Option (List Char) :=
  match rest2 with
  | h1 :: h2 :: h3 :: h4 :: rest3 =>
    match hexVal h1, hexVal h2, hexVal h3, hexVal h4 with
    | some n1, some n2, some n3, some n4 =>
      let n := n1 * 4096 + n2 * 256 + n3 * 16 + n4
      if 0xD800 ≤ n ∧ n < 0xDC00 then unescSur k n rest3
      else if 0xDC00 ≤ n ∧ n < 0xE000 then none
      else (k rest3).map (Char.ofNat n :: ·)
    | _, _, _, _ => none
  | _ => none

/-- `json.loads` string-body unescaping: the argument is everything after
the opening double quote; it must end exactly at the closing quote. A lone
surrogate escape is refused (Python would produce a lone-surrogate str, a
value outside the scalar strings modelled here and unreachable from
`json.dumps` of one). The fuel only bounds the recursion depth (each step
consumes at least one input character, so any fuel above the input length
is enough); it stands in for the structural recursion on the input. -/
def jsonUnesc : Nat → List Char → Option (List Char)
  | 0, _ => none
  | _ + 1, [] => none
  | fuel + 1, c :: rest =>
    if c = '"' then if rest.isEmpty then some [] else none
    else if c = '\\' then
      match rest with
      | [] => none
      | e :: rest2 =>
        if e = 'u' then unescU (jsonUnesc fuel) rest2
        else
          match jsonEscMap e with
          | some ec => (jsonUnesc fuel rest2).map (ec :: ·)
          | none => none
    else if c.toNat < 0x20 then none
    else (jsonUnesc fuel rest).map (c :: ·)

/-- `json.loads` applied to a quoted token (including its quotes): only
double-quoted JSON strings load; anything else is an error. -/
def jsonLoads (tok : List Char) : Option (List Char) :=
  if headIs '"' tok then jsonUnesc tok.length (tok.drop 1) else none

/-- `pp.DelimitedList` continuation: after one parsed element, consume
`, element` pairs while they parse; a comma whose element fails is rolled
back (pyparsing restores the location when an iteration of the ZeroOrMore
fails). The fuel bounds the number of iterations. -/
def pSepByAux {α : Type} (p : Pars α) : Nat → List α → Pars (List α) :=
  fun g acc inp =>
    match g with
    | 0 => none
    | g + 1 =>
      if headIs ',' inp then
        match p (inp.drop 1) with
        | some (a, r) => pSepByAux p g (acc ++ [a]) r
        | none => some (acc, inp)
      else some (acc, inp)

/-- `pp.DelimitedList p`: one or more `p`, comma-separated. -/
def pSepBy {α : Type} (g : Nat) (p : Pars α) : Pars (List α) := fun inp =>
  match p inp with
  | some (a, r) => pSepByAux p g [a] r
  | none => none

/-- `pp.Optional` of a list parser: absence yields `[]`. -/
def pOptList {α : Type} (q : Pars (List α)) : Pars (List α) := fun inp =>
  match q inp with
  | some res => some res
  | none => some ([], inp)

/-- The `Byte` element (`signed_integer + CaselessLiteral("B")`). -/
def pByteElem : Pars Int := fun inp => do
  let (v, r) ← pSignedInt inp
  let (_, r2) ← pSuffix 'B' 'b' r
  some (v, r2)

def pLongElem : Pars Int := fun inp => do
  let (v, r) ← pSignedInt inp
  let (_, r2) ← pSuffix 'L' 'l' r
  some (v, r2)

def pByteTag : Pars PTag := fun inp => (pByteElem inp).map (fun p => (PTag.pbyte p.1, p.2))

def pShortTag : Pars PTag := fun inp => do
  let (v, r) ← pSignedInt inp
  let (_, r2) ← pSuffix 'S' 's' r
  some (PTag.pshort v, r2)

def pLongTag : Pars PTag := fun inp => (pLongElem inp).map (fun p => (PTag.plong p.1, p.2))

def pFloatTag : Pars PTag := fun inp => do
  let (raw, r) ← pFnumberRaw inp
  let (_, r2) ← pSuffix 'F' 'f' r
  some (PTag.pfloat raw, r2)

/-- `FloatingPointNumber = Combine(Word(nums) + "." + Word(nums))` — no sign,
no exponent. -/
def pFloatingPointNumber : Pars (List Char) := fun inp =>
  match pDigits inp with
  | none => none
  | some (ds, r1) =>
    if headIs '.' r1 then (pDigits (r1.drop 1)).map (fun p => (ds ++ '.' :: p.1, p.2))
    else none

/-- `Double = (fnumber + "D") | FloatingPointNumber`. -/
def pDoubleTag : Pars PTag := fun inp =>
  (do
    let (raw, r) ← pFnumberRaw inp
    let (_, r2) ← pSuffix 'D' 'd' r
    some (PTag.pdouble raw, r2)) <|>
  (pFloatingPointNumber inp).map (fun p => (PTag.pdouble p.1, p.2))

def pIntTag : Pars PTag := fun inp => (pSignedInt inp).map (fun p => (PTag.pint p.1, p.2))

def pStringTag : Pars PTag := fun inp => do
  let (tok, r) ← pQuotedToken inp
  match jsonLoads tok with
  | some s => some (PTag.pstr s, r)
  | none => none

def pByteArrTag (g : Nat) : Pars PTag := fun inp =>
  if headIs '[' inp && headIs 'B' (inp.drop 1) && headIs ';' (inp.drop 2) then
    match pOptList (pSepBy g pByteElem) (inp.drop 3) with
    | some (vs, r) =>
      if headIs ']' r then some (PTag.pbyteArr vs, r.drop 1) else none
    | none => none
  else none

def pIntArrTag (g : Nat) : Pars PTag := fun inp =>
  if headIs '[' inp && headIs 'I' (inp.drop 1) && headIs ';' (inp.drop 2) then
    match pOptList (pSepBy g pSignedInt) (inp.drop 3) with
    | some (vs, r) =>
      if headIs ']' r then some (PTag.pintArr vs, r.drop 1) else none
    | none => none
  else none

def pLongArrTag (g : Nat) : Pars PTag := fun inp =>
  if headIs '[' inp && headIs 'L' (inp.drop 1) && headIs ';' (inp.drop 2) then
    match pOptList (pSepBy g pLongElem) (inp.drop 3) with
    | some (vs, r) =>
      if headIs ']' r then some (PTag.plongArr vs, r.drop 1) else none
    | none => none
  else none

/-- `CompoundKey = Word(alphanums + "_-.+") | quoted_string` with
`remove_quotes` (which strips the first and last character and does NOT
unescape). A quoted key always starts with a quote, which `Word` cannot
match, so the branches never overlap. -/
def pKey : Pars (List Char) := fun inp =>
  let w := inp.takeWhile isKeyChar
  if !w.isEmpty then some (w, inp.drop w.length)
  else
    match pQuotedToken inp with
    | some (tok, r) => some ((tok.drop 1).dropLast, r)
    | none => none

/-- `List = Group(Suppress("[") + Optional(SnbtElements) + Suppress("]"))`,
parameterized by the element parser (the grammar's recursive `SnbtValue`). -/
def pListTagF (pv : Pars PTag) (g : Nat) : Pars PTag := fun inp =>
  if headIs '[' inp then
    match pOptList (pSepBy g pv) (inp.drop 1) with
    | some (xs, r) =>
      if headIs ']' r then some (PTag.plist xs, r.drop 1) else none
    | none => none
  else none

/-- One `key : value` group of `CompoundValues`. -/
def pPairF (pv : Pars PTag) : Pars (List Char × PTag) := fun inp =>
  match pKey inp with
  | some (k, r1) =>
    if headIs ':' r1 then (pv (r1.drop 1)).map (fun p => ((k, p.1), p.2))
    else none
  | none => none

/-- `Compound = Group(Suppress("{") + Optional(CompoundValues) + Suppress("}"))`. -/
def pCompoundTagF (pv : Pars PTag) (g : Nat) : Pars PTag := fun inp =>
  if headIs '{' inp then
    match pOptList (pSepBy g (pPairF pv)) (inp.drop 1) with
    | some (kvs, r) =>
      if headIs '}' r then some (PTag.pcompound kvs, r.drop 1) else none
    | none => none
  else none

/-- `SnbtValue`, pyparsing `MatchFirst` in the source's order:
`Byte | Short | Long | Float | Double | Int | String | ByteArray | IntArray
| LongArray | List | Compound`. The fuel bounds nesting depth and
delimited-list iterations. -/
def pValue : Nat → Pars PTag
  | 0 => fun _ => none
  | f + 1 => fun inp =>
    pByteTag inp <|> pShortTag inp <|> pLongTag inp <|> pFloatTag inp <|>
      pDoubleTag inp <|> pIntTag inp <|> pStringTag inp <|> pByteArrTag f inp <|>
      pIntArrTag f inp <|> pLongArrTag f inp <|> pListTagF (pValue f) f inp <|>
      pCompoundTagF (pValue f) f inp

/-- Python dict assignment for the SNBT compound build. -/
def upsertS (acc : List (List Char × STag)) (k : List Char) (v : STag) :
    List (List Char × STag) :=
  match acc with
  | [] => [(k, v)]
  | (k0, v0) :: rest => if k0 = k then (k0, v) :: rest else (k0, v0) :: upsertS rest k v

/-- The dict comprehension `{k: make_tag(...) for ...}`: sequential
assignments. -/
def buildDict (es : List (List Char × STag)) : List (List Char × STag) :=
  es.foldl (fun acc p => upsertS acc p.1 p.2) []

/-- `Array(Dtype("uintW"), values)`: bitstring refuses negatives and
overflow at construction. -/
def toUints (w : Nat) (vs : List Int) : Option (List Nat) :=
  if vs.all (fun v => 0 ≤ v ∧ v < (2 : Int) ^ w) then some (vs.map Int.toNat) else none

mutual

/-- `make_tag` (snbt.py lines 48-53) on the embedded fragment. Float/Double
construction converts the literal to a host float, which is outside the
fragment: those cases are `none` here and unreachable from the round trip of
a fragment tag. -/
def makeTag : PTag → Option STag
  | .pbyte v => some (.byte v)
  | .pshort v => some (.short v)
  | .pint v => some (.int v)
  | .plong v => some (.long v)
  | .pfloat _ => none
  | .pdouble _ => none
  | .pstr s => some (.str s)
  | .pbyteArr vs => (toUints 8 vs).map .byteArr
  | .pintArr vs => (toUints 32 vs).map .intArr
  | .plongArr vs => (toUints 64 vs).map .longArr
  | .plist xs => (makeTags xs).map .list
  | .pcompound kvs => (makeEntries kvs).map (fun es => .compound (buildDict es))

def makeTags : List PTag → Option (List STag)
  | [] => some []
  | t :: ts => do
    let v ← makeTag t
    let vs ← makeTags ts
    some (v :: vs)

def makeEntries : List (List Char × PTag) → Option (List (List Char × STag))
  | [] => some []
  | (k, pv) :: rest => do
    let v ← makeTag pv
    let es ← makeEntries rest
    some ((k, v) :: es)

end

/-- `from_snbt` (snbt.py lines 56-58): parse (`parse_string` without
`parseAll`: leftover input is ignored), then `make_tag`. -/
def from_snbt (f : Nat) (s : List Char) : Option STag :=
  match pValue f s with
  | some (pt, _) => makeTag pt
  | none => none

mutual

/-- The parse-level image of a fragment tag: what `SnbtValue` produces on
its rendered text. -/
def ptagOf : STag → PTag
  | .byte v => .pbyte v
  | .short v => .pshort v
  | .int v => .pint v
  | .long v => .plong v
  | .str s => .pstr s
  | .byteArr vs => .pbyteArr (vs.map Int.ofNat)
  | .intArr vs => .pintArr (vs.map Int.ofNat)
  | .longArr vs => .plongArr (vs.map Int.ofNat)
  | .list xs => .plist (ptagList xs)
  | .compound kvs => .pcompound (ptagEntries kvs)

def ptagList : List STag → List PTag
  | [] => []
  | t :: ts => ptagOf t :: ptagList ts

def ptagEntries : List (List Char × STag) → List (List Char × PTag)
  | [] => []
  | (k, v) :: rest => (k, ptagOf v) :: ptagEntries rest

end

/-- A compound key that survives the round trip: either a non-empty word
over the unquoted-key alphabet (rendered unquoted), or a key needing quotes
whose characters are printable ASCII other than `"` and `\` (so
`json.dumps` adds no escapes, matching the quote-stripping `remove_quotes`
on the way back). -/
def wfKey (k : List Char) : Bool :=
  (!k.isEmpty && k.all isKeyChar) ||
  (k.any (fun c => !(isKeyChar c)) &&
    k.all (fun c => 0x20 ≤ c.toNat && c.toNat ≤ 0x7E && c ≠ '"' && c ≠ '\\'))

mutual

/-- Well-formedness of a fragment tag for the round-trip theorem: array
elements within their backing range (the only constructible arrays), and
compound keys round-trippable and pairwise distinct (a Python dict's keys
are). -/
def wfT : STag → Bool
  | .byte _ => true
  | .short _ => true
  | .int _ => true
  | .long _ => true
  | .str _ => true
  | .byteArr vs => vs.all (fun n => n < 2 ^ 8)
  | .intArr vs => vs.all (fun n => n < 2 ^ 32)
  | .longArr vs => vs.all (fun n => n < 2 ^ 64)
  | .list xs => wfList xs
  | .compound kvs => wfEntries kvs

def wfList : List STag → Bool
  | [] => true
  | t :: ts => wfT t && wfList ts

def wfEntries : List (List Char × STag) → Bool
  | [] => true
  | (k, v) :: rest =>
    wfKey k && wfT v && !(rest.any (fun p => decide (p.1 = k))) && wfEntries rest

end

mutual

/-- Sufficient parser fuel for a tag's rendered text: nesting depth plus
delimited-list iteration counts. -/
def fuelT : STag → Nat
  | .byte _ => 1
  | .short _ => 1
  | .int _ => 1
  | .long _ => 1
  | .str _ => 1
  | .byteArr vs => vs.length + 1
  | .intArr vs => vs.length + 1
  | .longArr vs => vs.length + 1
  | .list xs => fuelMax xs + xs.length + 1
  | .compound kvs => fuelMaxE kvs + kvs.length + 1

def fuelMax : List STag → Nat
  | [] => 0
  | t :: ts => max (fuelT t) (fuelMax ts)

def fuelMaxE : List (List Char × STag) → Nat
  | [] => 0
  | (_, v) :: rest => max (fuelT v) (fuelMaxE rest)

end

/-- The characters that may follow a complete value in its context: nothing,
or a list/compound delimiter. -/
def followOk : List Char → Bool
  | [] => true
  | c :: _ => c = ',' || c = ']' || c = '}'

/-! ### Round-trip proof: decimal literals -/

theorem natDigitsRev_lt (f n : Nat) : ∀ d ∈ natDigitsRev f n, d < 10 := by
  induction f generalizing n with
  | zero => intro d hd; cases hd
  | succ f ih =>
    intro d hd
    rw [natDigitsRev] at hd
    by_cases h0 : n = 0
    · rw [if_pos h0] at hd
      cases hd
    · rw [if_neg h0] at hd
      rcases List.mem_cons.mp hd with h | h
      · subst h
        exact Nat.mod_lt _ (by norm_num)
      · exact ih (n / 10) d h

theorem natDigitsRev_val (f n : Nat) (h : n ≤ f) :
    (natDigitsRev f n).foldr (fun d acc => d + 10 * acc) 0 = n := by
  induction f generalizing n with
  | zero =>
    rw [natDigitsRev]
    simp only [List.foldr_nil]
    omega
  | succ f ih =>
    rw [natDigitsRev]
    by_cases h0 : n = 0
    · rw [if_pos h0]
      simp only [List.foldr_nil]
      omega
    · rw [if_neg h0, List.foldr_cons, ih (n / 10) (by omega)]
      omega

theorem natDigitsRev_ne_nil (f n : Nat) (hf : 0 < f) (hn : 0 < n) :
    natDigitsRev f n ≠ [] := by
  cases f with
  | zero => omega
  | succ f =>
    rw [natDigitsRev, if_neg (by omega)]
    exact List.cons_ne_nil _ _

theorem digitChar_toNat : ∀ d < 10, (Char.ofNat (48 + d)).toNat = 48 + d := by decide

theorem digitChar_isDigitC : ∀ d < 10, isDigitC (Char.ofNat (48 + d)) = true := by decide

theorem isDigitC_toNat {c : Char} (h : isDigitC c = true) : 48 ≤ c.toNat ∧ c.toNat ≤ 57 := by
  rw [isDigitC, Bool.and_eq_true, decide_eq_true_eq, decide_eq_true_eq] at h
  exact h

theorem ne_of_toNat_ne {c d : Char} (h : c.toNat ≠ d.toNat) : c ≠ d :=
  fun hc => h (hc ▸ rfl)

theorem natChars_all_digit (n : Nat) : ∀ c ∈ natChars n, isDigitC c = true := by
  rw [natChars]
  by_cases h0 : n = 0
  · rw [if_pos h0]
    intro c hc
    rcases List.mem_singleton.mp hc with rfl
    decide
  · rw [if_neg h0]
    intro c hc
    rcases List.mem_map.mp hc with ⟨d, hd, rfl⟩
    exact digitChar_isDigitC d (natDigitsRev_lt n n d (List.mem_reverse.mp hd))

theorem natChars_ne_nil (n : Nat) : natChars n ≠ [] := by
  rw [natChars]
  by_cases h0 : n = 0
  · rw [if_pos h0]
    exact List.cons_ne_nil _ _
  · rw [if_neg h0]
    intro hmap
    rcases List.map_eq_nil_iff.mp hmap with hrev
    exact natDigitsRev_ne_nil n n (by omega) (by omega) (List.reverse_eq_nil_iff.mp hrev)

theorem foldl_digits_chars (ds : List Nat) (hds : ∀ d ∈ ds, d < 10) :
    ∀ acc : Nat, (ds.map (fun d => Char.ofNat (48 + d))).foldl
        (fun a c => a * 10 + (c.toNat - 48)) acc =
      ds.foldl (fun a d => a * 10 + d) acc := by
  induction ds with
  | nil => intro acc; rfl
  | cons d tl ih =>
    intro acc
    have hd : d < 10 := hds d (List.mem_cons_self _ _)
    simp only [List.map_cons, List.foldl_cons]
    rw [digitChar_toNat d hd, ih (fun x hx => hds x (List.mem_cons_of_mem _ hx))]
    congr 1
    omega

theorem foldl_of_foldr (ds : List Nat) :
    ∀ acc : Nat, ds.reverse.foldl (fun a d => a * 10 + d) acc =
      acc * 10 ^ ds.length + ds.foldr (fun d a => d + 10 * a) 0 := by
  induction ds with
  | nil => intro acc; simp
  | cons d tl ih =>
    intro acc
    simp only [List.reverse_cons, List.foldl_append, List.foldl_cons, List.foldl_nil,
      List.foldr_cons, List.length_cons]
    rw [ih]
    ring

theorem digitsVal_natChars (n : Nat) : digitsVal (natChars n) = n := by
  rw [natChars]
  by_cases h0 : n = 0
  · rw [if_pos h0, h0]
    rfl
  · rw [if_neg h0, digitsVal]
    rw [foldl_digits_chars _ (fun d hd => natDigitsRev_lt n n d (List.mem_reverse.mp hd)) 0]
    rw [foldl_of_foldr, natDigitsRev_val n n le_rfl]
    simp

/-- The head of `r` (if any) fails the predicate `p`. -/
def headNotP (p : Char → Bool) : List Char → Prop
  | [] => True
  | c :: _ => p c = false

theorem takeWhile_append_of_all {p : Char → Bool} (l r : List Char)
    (hl : ∀ c ∈ l, p c = true) (hr : headNotP p r) :
    (l ++ r).takeWhile p = l := by
  induction l with
  | nil =>
    simp only [List.nil_append]
    cases r with
    | nil => rfl
    | cons c t =>
      rw [List.takeWhile_cons, hr]
      simp
  | cons c t ih =>
    rw [List.cons_append, List.takeWhile_cons, hl c (List.mem_cons_self _ _)]
    simp only [if_pos rfl]
    rw [ih (fun x hx => hl x (List.mem_cons_of_mem _ hx))]
    simp

theorem pDigits_natChars (n : Nat) (rest : List Char) (hr : headNotP isDigitC rest) :
    pDigits (natChars n ++ rest) = some (natChars n, rest) := by
  rw [pDigits]
  simp only [takeWhile_append_of_all (natChars n) rest (natChars_all_digit n) hr]
  rw [if_neg (by simpa using natChars_ne_nil n)]
  rw [List.drop_left]

theorem pDigits_none (inp : List Char) (h : headNotP isDigitC inp) : pDigits inp = none := by
  rw [pDigits]
  cases inp with
  | nil => rfl
  | cons c t =>
    rw [List.takeWhile_cons, h]
    rfl

theorem headIs_eq_false {c x : Char} {t : List Char} (h : x ≠ c) :
    headIs c (x :: t) = false := by
  simp [headIs, h]

theorem natChars_head_not (n : Nat) (rest : List Char) (c : Char)
    (hc : isDigitC c = false) : headIs c (natChars n ++ rest) = false := by
  cases hnc : natChars n with
  | nil => exact absurd hnc (natChars_ne_nil n)
  | cons d ds =>
    have hd : isDigitC d = true :=
      natChars_all_digit n d (by rw [hnc]; exact List.mem_cons_self _ _)
    rw [List.cons_append]
    exact headIs_eq_false (fun hdc => by rw [hdc, hc] at hd; cases hd)

theorem pSignedInt_intChars (v : Int) (rest : List Char) (hr : headNotP isDigitC rest) :
    pSignedInt (intChars v ++ rest) = some (v, rest) := by
  rw [pSignedInt, intChars]
  by_cases hv : v < 0
  · rw [if_pos hv]
    simp only [List.cons_append]
    rw [show headIs '-' ('-' :: (natChars v.natAbs ++ rest)) = true from rfl]
    rw [if_pos rfl]
    simp only [List.drop_succ_cons, List.drop_zero]
    rw [pDigits_natChars _ _ hr]
    simp only [Option.map_some', digitsVal_natChars]
    have hva : -((v.natAbs : Nat) : Int) = v := by omega
    rw [hva]
  · rw [if_neg hv]
    rw [natChars_head_not _ _ '-' (by decide), natChars_head_not _ _ '+' (by decide)]
    simp only [Bool.false_eq_true, if_false]
    rw [pDigits_natChars _ _ hr]
    simp only [Option.map_some', digitsVal_natChars]
    have hva : ((v.toNat : Nat) : Int) = v := by omega
    rw [hva]

theorem pSignedInt_none (inp : List Char)
    (h : headNotP (fun c => isDigitC c || decide (c = '-') || decide (c = '+')) inp) :
    pSignedInt inp = none := by
  cases inp with
  | nil => rfl
  | cons c t =>
    simp only [headNotP, Bool.or_eq_false_iff, decide_eq_false_iff_not] at h
    rw [pSignedInt, headIs_eq_false h.1.2, headIs_eq_false h.2]
    simp only [Bool.false_eq_true, if_false]
    rw [pDigits_none _ (by simp only [headNotP]; exact h.1.1)]
    rfl

theorem headIs_false_of_headNotP {p : Char → Bool} {r : List Char} (c : Char)
    (h : headNotP p r) (hc : p c = true) : headIs c r = false := by
  cases r with
  | nil => rfl
  | cons x t =>
    refine headIs_eq_false (fun hxc => ?_)
    rw [headNotP, hxc, hc] at h
    cases h

/-- The tail after a complete rendered integer literal satisfies none of the
characters that could extend an `fnumber` match. -/
def numFollow (rest : List Char) : Prop :=
  headNotP (fun c => isDigitC c || decide (c = '.') || decide (c = 'e') || decide (c = 'E')) rest

theorem numFollow_digit {rest : List Char} (h : numFollow rest) : headNotP isDigitC rest := by
  cases rest with
  | nil => trivial
  | cons c t =>
    simp only [numFollow, headNotP, Bool.or_eq_false_iff] at h
    exact h.1.1.1

theorem pFnumberRaw_intChars (v : Int) (rest : List Char) (hr : numFollow rest) :
    pFnumberRaw (intChars v ++ rest) = some (intChars v, rest) := by
  have hdot : headIs '.' rest = false := headIs_false_of_headNotP _ hr (by decide)
  have he : headIs 'e' rest = false := headIs_false_of_headNotP _ hr (by decide)
  have hE : headIs 'E' rest = false := headIs_false_of_headNotP _ hr (by decide)
  have hdg := numFollow_digit hr
  rw [intChars]
  by_cases hv : v < 0
  · rw [if_pos hv, List.cons_append, pFnumberRaw]
    simp [show headIs '-' ('-' :: (natChars v.natAbs ++ rest)) = true from rfl,
      pDigits_natChars _ _ hdg, hdot, he, hE]
  · rw [if_neg hv, pFnumberRaw]
    simp [natChars_head_not v.toNat rest '-' (by decide),
      natChars_head_not v.toNat rest '+' (by decide),
      pDigits_natChars _ _ hdg, hdot, he, hE]

theorem pFnumberRaw_none (inp : List Char)
    (h : headNotP (fun c => isDigitC c || decide (c = '-') || decide (c = '+')) inp) :
    pFnumberRaw inp = none := by
  cases inp with
  | nil => rfl
  | cons c t =>
    simp only [headNotP, Bool.or_eq_false_iff, decide_eq_false_iff_not] at h
    rw [pFnumberRaw, headIs_eq_false h.1.2, headIs_eq_false h.2]
    simp only [Bool.false_eq_true, if_false]
    rw [pDigits_none _ (by simp only [headNotP]; exact h.1.1)]

theorem pFloatingPointNumber_intChars (v : Int) (rest : List Char) (hr : numFollow rest) :
    pFloatingPointNumber (intChars v ++ rest) = none := by
  have hdot : headIs '.' rest = false := headIs_false_of_headNotP _ hr (by decide)
  rw [pFloatingPointNumber, intChars]
  by_cases hv : v < 0
  · rw [if_pos hv]
    simp only [List.cons_append]
    rw [pDigits_none _ (by simp [headNotP, isDigitC])]
  · rw [if_neg hv]
    simp [pDigits_natChars _ _ (numFollow_digit hr), hdot]

theorem pFloatingPointNumber_none (inp : List Char) (h : headNotP isDigitC inp) :
    pFloatingPointNumber inp = none := by
  rw [pFloatingPointNumber, pDigits_none _ h]

theorem headNotP_cons {p : Char → Bool} {c : Char} (rest : List Char) (h : p c = false) :
    headNotP p (c :: rest) := h

theorem numFollow_cons {c : Char} (rest : List Char)
    (h : (isDigitC c || decide (c = '.') || decide (c = 'e') || decide (c = 'E')) = false) :
    numFollow (c :: rest) := h

theorem followOk_cases {rest : List Char} (h : followOk rest = true) :
    rest = [] ∨ ∃ c t, rest = c :: t ∧ (c = ',' ∨ c = ']' ∨ c = '}') := by
  cases rest with
  | nil => exact Or.inl rfl
  | cons c t =>
    refine Or.inr ⟨c, t, rfl, ?_⟩
    simp only [followOk, Bool.or_eq_true, decide_eq_true_eq] at h
    tauto

theorem followOk_numFollow {rest : List Char} (h : followOk rest = true) : numFollow rest := by
  rcases followOk_cases h with rfl | ⟨c, t, rfl, hc⟩
  · trivial
  · rcases hc with rfl | rfl | rfl <;> exact numFollow_cons _ (by decide)

theorem followOk_headNot {rest : List Char} (h : followOk rest = true) (p : Char → Bool)
    (hp : p ',' = false ∧ p ']' = false ∧ p '}' = false) : headNotP p rest := by
  rcases followOk_cases h with rfl | ⟨c, t, rfl, hc⟩
  · trivial
  · rcases hc with rfl | rfl | rfl
    · exact hp.1
    · exact hp.2.1
    · exact hp.2.2

theorem pSuffix_followOk_none {u l : Char} {rest : List Char} (h : followOk rest = true)
    (hu : u ≠ ',' ∧ u ≠ ']' ∧ u ≠ '}') (hl : l ≠ ',' ∧ l ≠ ']' ∧ l ≠ '}') :
    pSuffix u l rest = none := by
  rcases followOk_cases h with rfl | ⟨c, t, rfl, hc⟩
  · rfl
  · rw [pSuffix]
    rw [headIs_eq_false (by rcases hc with rfl | rfl | rfl <;> tauto),
      headIs_eq_false (by rcases hc with rfl | rfl | rfl <;> tauto)]
    rfl

/-! Numeric-alternative behavior on a rendered integer literal. -/

theorem pByteTag_int (v : Int) (rest : List Char) (hnf : numFollow rest)
    (hB : pSuffix 'B' 'b' rest = none) : pByteTag (intChars v ++ rest) = none := by
  simp [pByteTag, pByteElem, pSignedInt_intChars v rest (numFollow_digit hnf), hB]

theorem pShortTag_int (v : Int) (rest : List Char) (hnf : numFollow rest)
    (hS : pSuffix 'S' 's' rest = none) : pShortTag (intChars v ++ rest) = none := by
  simp [pShortTag, pSignedInt_intChars v rest (numFollow_digit hnf), hS]

theorem pLongTag_int (v : Int) (rest : List Char) (hnf : numFollow rest)
    (hL : pSuffix 'L' 'l' rest = none) : pLongTag (intChars v ++ rest) = none := by
  simp [pLongTag, pLongElem, pSignedInt_intChars v rest (numFollow_digit hnf), hL]

theorem pFloatTag_int (v : Int) (rest : List Char) (hnf : numFollow rest)
    (hF : pSuffix 'F' 'f' rest = none) : pFloatTag (intChars v ++ rest) = none := by
  simp [pFloatTag, pFnumberRaw_intChars v rest hnf, hF]

theorem pDoubleTag_int (v : Int) (rest : List Char) (hnf : numFollow rest)
    (hD : pSuffix 'D' 'd' rest = none) : pDoubleTag (intChars v ++ rest) = none := by
  simp [pDoubleTag, pFnumberRaw_intChars v rest hnf, hD,
    pFloatingPointNumber_intChars v rest hnf]

theorem pIntTag_int (v : Int) (rest : List Char) (hnf : numFollow rest) :
    pIntTag (intChars v ++ rest) = some (PTag.pint v, rest) := by
  simp [pIntTag, pSignedInt_intChars v rest (numFollow_digit hnf)]

/-- A suffixed integer tag: the digits stop at the (non-digit) suffix letter
and the suffix is consumed. -/
theorem pByteTag_suffixed (v : Int) (rest : List Char) :
    pByteTag (intChars v ++ 'B' :: rest) = some (PTag.pbyte v, rest) := by
  simp [pByteTag, pByteElem, pSignedInt_intChars v ('B' :: rest) (headNotP_cons _ (by decide)), pSuffix, headIs]

theorem pShortTag_suffixed (v : Int) (rest : List Char) :
    pShortTag (intChars v ++ 'S' :: rest) = some (PTag.pshort v, rest) := by
  simp [pShortTag, pSignedInt_intChars v ('S' :: rest) (headNotP_cons _ (by decide)), pSuffix, headIs]

theorem pLongTag_suffixed (v : Int) (rest : List Char) :
    pLongTag (intChars v ++ 'L' :: rest) = some (PTag.plong v, rest) := by
  simp [pLongTag, pLongElem, pSignedInt_intChars v ('L' :: rest) (headNotP_cons _ (by decide)), pSuffix, headIs]

theorem pByteTag_shortText (v : Int) (rest : List Char) :
    pByteTag (intChars v ++ 'S' :: rest) = none := by
  simp [pByteTag, pByteElem, pSignedInt_intChars v ('S' :: rest) (headNotP_cons _ (by decide)), pSuffix, headIs]

theorem pByteTag_longText (v : Int) (rest : List Char) :
    pByteTag (intChars v ++ 'L' :: rest) = none := by
  simp [pByteTag, pByteElem, pSignedInt_intChars v ('L' :: rest) (headNotP_cons _ (by decide)), pSuffix, headIs]

theorem pShortTag_longText (v : Int) (rest : List Char) :
    pShortTag (intChars v ++ 'L' :: rest) = none := by
  simp [pShortTag, pSignedInt_intChars v ('L' :: rest) (headNotP_cons _ (by decide)), pSuffix, headIs]

/-! Alternative failure on inputs that do not start a number, quote, bracket
or brace. -/

theorem numerics_none (inp : List Char)
    (h : headNotP (fun c => isDigitC c || decide (c = '-') || decide (c = '+')) inp) :
    pByteTag inp = none ∧ pShortTag inp = none ∧ pLongTag inp = none ∧
      pFloatTag inp = none ∧ pDoubleTag inp = none ∧ pIntTag inp = none := by
  have hdg : headNotP isDigitC inp := by
    cases inp with
    | nil => trivial
    | cons c t =>
      simp only [headNotP, Bool.or_eq_false_iff] at h
      exact h.1.1
  refine ⟨?_, ?_, ?_, ?_, ?_, ?_⟩ <;>
    simp [pByteTag, pByteElem, pShortTag, pLongTag, pLongElem, pFloatTag, pDoubleTag,
      pIntTag, pSignedInt_none inp h, pFnumberRaw_none inp h,
      pFloatingPointNumber_none inp hdg]

theorem pQuotedToken_none (inp : List Char)
    (h : headNotP (fun c => decide (c = '"') || decide (c = '\'')) inp) :
    pQuotedToken inp = none := by
  cases inp with
  | nil => rfl
  | cons c t =>
    simp only [headNotP, Bool.or_eq_false_iff, decide_eq_false_iff_not] at h
    rw [pQuotedToken, headIs_eq_false h.1, headIs_eq_false h.2]
    rfl

theorem pStringTag_none (inp : List Char)
    (h : headNotP (fun c => decide (c = '"') || decide (c = '\'')) inp) :
    pStringTag inp = none := by
  simp [pStringTag, pQuotedToken_none inp h]

theorem pArrTags_not_bracket (g : Nat) (inp : List Char) (h : headIs '[' inp = false) :
    pByteArrTag g inp = none ∧ pIntArrTag g inp = none ∧ pLongArrTag g inp = none := by
  refine ⟨?_, ?_, ?_⟩ <;> simp [pByteArrTag, pIntArrTag, pLongArrTag, h]

theorem pListTagF_not_bracket (pv : Pars PTag) (g : Nat) (inp : List Char)
    (h : headIs '[' inp = false) : pListTagF pv g inp = none := by
  simp [pListTagF, h]

theorem pCompoundTagF_not_brace (pv : Pars PTag) (g : Nat) (inp : List Char)
    (h : headIs '{' inp = false) : pCompoundTagF pv g inp = none := by
  simp [pCompoundTagF, h]

/-! ### Round-trip proof: delimited lists -/

theorem intChars_natCast (n : Nat) : intChars (n : Int) = natChars n := by
  rw [intChars, if_neg (by omega)]
  norm_num

/-- The element parser accepts exactly the rendered text of the element, in
any context that a complete value may occupy. -/
def ElemOk {α : Type} (p : Pars α) (txt : List Char) (a : α) : Prop :=
  ∀ suffix, followOk suffix = true → p (txt ++ suffix) = some (a, suffix)

/-- The input left after the first element of a delimited list: the remaining
comma-prefixed element texts, then the closing delimiter. -/
def sepTail (close : Char) (rest : List Char) : List (List Char) → List Char
  | [] => close :: rest
  | txt :: more => ',' :: (txt ++ sepTail close rest more)

theorem joinComma_sepTail (close : Char) (rest : List Char) :
    ∀ (x : List Char) (more : List (List Char)),
      joinComma (x :: more) ++ close :: rest = x ++ sepTail close rest more := by
  intro x more
  induction more generalizing x with
  | nil => rfl
  | cons y more ih =>
    show (x ++ ',' :: joinComma (y :: more)) ++ close :: rest = _
    rw [List.append_assoc]
    show x ++ ',' :: (joinComma (y :: more) ++ close :: rest) = _
    rw [ih y]
    rfl

theorem followOk_sepTail (close : Char) (rest : List Char)
    (more : List (List Char)) (hc : close = ']' ∨ close = '}') :
    followOk (sepTail close rest more) = true := by
  cases more with
  | nil => rcases hc with rfl | rfl <;> rfl
  | cons y more => rfl

theorem pSepByAux_spec {α : Type} (p : Pars α) (close : Char) (rest : List Char)
    (hc : close = ']' ∨ close = '}') :
    ∀ (items : List (List Char × α)) (g : Nat) (acc : List α),
      items.length < g →
      (∀ it ∈ items, ElemOk p it.1 it.2) →
      pSepByAux p g acc (sepTail close rest (items.map Prod.fst)) =
        some (acc ++ items.map Prod.snd, close :: rest) := by
  intro items
  induction items with
  | nil =>
    intro g acc hg _
    match g, hg with
    | g + 1, _ =>
      show pSepByAux p (g + 1) acc (close :: rest) = _
      rw [pSepByAux, headIs_eq_false (show close ≠ ',' by rcases hc with rfl | rfl <;> decide)]
      simp
  | cons it more ih =>
    intro g acc hg hel
    match g, hg with
    | g + 1, hg =>
      show pSepByAux p (g + 1) acc (',' :: (it.1 ++ sepTail close rest (more.map Prod.fst))) = _
      rw [pSepByAux]
      have hstep : p (it.1 ++ sepTail close rest (more.map Prod.fst)) =
          some (it.2, sepTail close rest (more.map Prod.fst)) :=
        hel it (by simp) _ (followOk_sepTail close rest _ hc)
      rw [show (headIs ','
          (',' :: (it.1 ++ sepTail close rest (more.map Prod.fst)))) = true from rfl]
      simp only [if_true, List.drop_succ_cons, List.drop_zero, hstep]
      rw [ih g (acc ++ [it.2]) (by simpa using Nat.lt_of_succ_lt_succ hg)
        (fun x hx => hel x (by simp [hx]))]
      simp

theorem pSepBy_spec {α : Type} (p : Pars α) (close : Char) (rest : List Char)
    (hc : close = ']' ∨ close = '}') (first : List Char × α)
    (more : List (List Char × α)) (g : Nat) (hg : more.length < g)
    (h1 : ElemOk p first.1 first.2) (hm : ∀ it ∈ more, ElemOk p it.1 it.2) :
    pSepBy g p (first.1 ++ sepTail close rest (more.map Prod.fst)) =
      some (first.2 :: more.map Prod.snd, close :: rest) := by
  rw [pSepBy]
  have hstep : p (first.1 ++ sepTail close rest (more.map Prod.fst)) =
      some (first.2, sepTail close rest (more.map Prod.fst)) :=
    h1 _ (followOk_sepTail close rest _ hc)
  rw [hstep]
  have := pSepByAux_spec p close rest hc more g [first.2] hg hm
  simpa using this

/-! ### Round-trip proof: quoted strings -/

theorem scanQ_cons_plain (q c : Char) (t : List Char) (h1 : c ≠ '\\') (h2 : c ≠ q)
    (h3 : c ≠ Char.ofNat 10) (h4 : c ≠ Char.ofNat 13) :
    scanQ q (c :: t) = (scanQ q t).map (fun p => (c :: p.1, p.2)) := by
  cases t with
  | nil =>
    simp only [scanQ]
    rw [if_neg h1, if_neg h2, if_neg (by tauto)]
  | cons c2 t2 =>
    simp only [scanQ]
    rw [if_neg h1, if_neg h2, if_neg (by tauto)]

theorem scanQ_cons_esc (q c2 : Char) (t : List Char) :
    scanQ q ('\\' :: c2 :: t) = (scanQ q t).map (fun p => ('\\' :: c2 :: p.1, p.2)) := by
  simp only [scanQ]
  simp

theorem scanQ_close (q : Char) (t : List Char) (h : q ≠ '\\') :
    scanQ q (q :: t) = some ([], t) := by
  cases t with
  | nil =>
    simp only [scanQ]
    simp [h]
  | cons c2 t2 =>
    simp only [scanQ]
    simp [h]

theorem hexDigit_plain (n : Nat) :
    hexDigit n ≠ '"' ∧ hexDigit n ≠ '\\' ∧ hexDigit n ≠ Char.ofNat 10 ∧
      hexDigit n ≠ Char.ofNat 13 := by
  by_cases h : n < 16
  · interval_cases n <;> exact ⟨by decide, by decide, by decide, by decide⟩
  · have he : hexDigit n = '0' := by
      rw [hexDigit, if_neg (by omega), if_neg (by omega)]
    rw [he]
    exact ⟨by decide, by decide, by decide, by decide⟩

theorem scanQ_uEsc (n : Nat) (t : List Char) :
    scanQ '"' (uEsc n ++ t) = (scanQ '"' t).map (fun p => (uEsc n ++ p.1, p.2)) := by
  obtain ⟨a1, b1, c1, d1⟩ := hexDigit_plain (n / 4096 % 16)
  obtain ⟨a2, b2, c2, d2⟩ := hexDigit_plain (n / 256 % 16)
  obtain ⟨a3, b3, c3, d3⟩ := hexDigit_plain (n / 16 % 16)
  obtain ⟨a4, b4, c4, d4⟩ := hexDigit_plain (n % 16)
  show scanQ '"' ('\\' :: 'u' :: hexDigit (n / 4096 % 16) :: hexDigit (n / 256 % 16) ::
    hexDigit (n / 16 % 16) :: hexDigit (n % 16) :: t) = _
  rw [scanQ_cons_esc, scanQ_cons_plain _ _ _ b1 a1 c1 d1,
    scanQ_cons_plain _ _ _ b2 a2 c2 d2, scanQ_cons_plain _ _ _ b3 a3 c3 d3,
    scanQ_cons_plain _ _ _ b4 a4 c4 d4]
  cases scanQ '"' t <;> rfl

theorem scanQ_escChar (c : Char) (t : List Char) :
    scanQ '"' (jsonEscChar c ++ t) =
      (scanQ '"' t).map (fun p => (jsonEscChar c ++ p.1, p.2)) := by
  by_cases h1 : c = '"'
  · subst h1
    rw [show jsonEscChar '"' = ['\\', '"'] from rfl]
    rw [show (['\\', '"'] : List Char) ++ t = '\\' :: '"' :: t from rfl, scanQ_cons_esc]
    cases scanQ '"' t <;> rfl
  by_cases h2 : c = '\\'
  · subst h2
    rw [show jsonEscChar '\\' = ['\\', '\\'] from rfl]
    rw [show (['\\', '\\'] : List Char) ++ t = '\\' :: '\\' :: t from rfl, scanQ_cons_esc]
    cases scanQ '"' t <;> rfl
  by_cases h3 : c = Char.ofNat 8
  · subst h3
    rw [show jsonEscChar (Char.ofNat 8) = ['\\', 'b'] from rfl]
    rw [show (['\\', 'b'] : List Char) ++ t = '\\' :: 'b' :: t from rfl, scanQ_cons_esc]
    cases scanQ '"' t <;> rfl
  by_cases h4 : c = Char.ofNat 9
  · subst h4
    rw [show jsonEscChar (Char.ofNat 9) = ['\\', 't'] from rfl]
    rw [show (['\\', 't'] : List Char) ++ t = '\\' :: 't' :: t from rfl, scanQ_cons_esc]
    cases scanQ '"' t <;> rfl
  by_cases h5 : c = Char.ofNat 10
  · subst h5
    rw [show jsonEscChar (Char.ofNat 10) = ['\\', 'n'] from rfl]
    rw [show (['\\', 'n'] : List Char) ++ t = '\\' :: 'n' :: t from rfl, scanQ_cons_esc]
    cases scanQ '"' t <;> rfl
  by_cases h6 : c = Char.ofNat 12
  · subst h6
    rw [show jsonEscChar (Char.ofNat 12) = ['\\', 'f'] from rfl]
    rw [show (['\\', 'f'] : List Char) ++ t = '\\' :: 'f' :: t from rfl, scanQ_cons_esc]
    cases scanQ '"' t <;> rfl
  by_cases h7 : c = Char.ofNat 13
  · subst h7
    rw [show jsonEscChar (Char.ofNat 13) = ['\\', 'r'] from rfl]
    rw [show (['\\', 'r'] : List Char) ++ t = '\\' :: 'r' :: t from rfl, scanQ_cons_esc]
    cases scanQ '"' t <;> rfl
  by_cases h8 : c.toNat < 0x20
  · rw [show jsonEscChar c = uEsc c.toNat by
      rw [jsonEscChar, if_neg h1, if_neg h2, if_neg h3, if_neg h4, if_neg h5, if_neg h6,
        if_neg h7, if_pos h8]]
    rw [scanQ_uEsc]
  by_cases h9 : c.toNat < 0x7F
  · rw [show jsonEscChar c = [c] by
      rw [jsonEscChar, if_neg h1, if_neg h2, if_neg h3, if_neg h4, if_neg h5, if_neg h6,
        if_neg h7, if_neg h8, if_pos h9]]
    rw [show [c] ++ t = c :: t from rfl, scanQ_cons_plain _ _ _ h2 h1 h5 h7]
    cases scanQ '"' t <;> rfl
  by_cases h10 : c.toNat < 0x10000
  · rw [show jsonEscChar c = uEsc c.toNat by
      rw [jsonEscChar, if_neg h1, if_neg h2, if_neg h3, if_neg h4, if_neg h5, if_neg h6,
        if_neg h7, if_neg h8, if_neg h9, if_pos h10]]
    rw [scanQ_uEsc]
  · rw [show jsonEscChar c =
        uEsc (0xD800 + (c.toNat - 0x10000) / 1024) ++ uEsc (0xDC00 + (c.toNat - 0x10000) % 1024) by
      rw [jsonEscChar, if_neg h1, if_neg h2, if_neg h3, if_neg h4, if_neg h5, if_neg h6,
        if_neg h7, if_neg h8, if_neg h9, if_neg h10]]
    rw [List.append_assoc, scanQ_uEsc, scanQ_uEsc]
    cases scanQ '"' t <;> simp

theorem scanQ_escBody (s : List Char) (rest : List Char) :
    scanQ '"' (escBody s ++ '"' :: rest) = some (escBody s, rest) := by
  induction s with
  | nil => exact scanQ_close _ _ (by decide)
  | cons c s' ih =>
    show scanQ '"' ((jsonEscChar c ++ escBody s') ++ '"' :: rest) = _
    rw [List.append_assoc, scanQ_escChar, ih]
    rfl

theorem scanQ_plain_list (q : Char) (k : List Char) (rest : List Char) (hq : q ≠ '\\')
    (hk : ∀ c ∈ k, c ≠ '\\' ∧ c ≠ q ∧ c ≠ Char.ofNat 10 ∧ c ≠ Char.ofNat 13) :
    scanQ q (k ++ q :: rest) = some (k, rest) := by
  induction k with
  | nil => exact scanQ_close _ _ hq
  | cons c k' ih =>
    obtain ⟨hb, hqc, hn, hr⟩ := hk c (by simp)
    show scanQ q (c :: (k' ++ q :: rest)) = _
    rw [scanQ_cons_plain _ _ _ hb hqc hn hr, ih (fun x hx => hk x (by simp [hx]))]
    rfl

theorem hexVal_hexDigit (n : Nat) (h : n < 16) : hexVal (hexDigit n) = some n := by
  interval_cases n <;> rfl

theorem jsonUnesc_uEsc_bmp (f n : Nat) (t : List Char) (hn : n < 0x10000)
    (hs1 : ¬(0xD800 ≤ n ∧ n < 0xDC00)) (hs2 : ¬(0xDC00 ≤ n ∧ n < 0xE000)) :
    jsonUnesc (f + 1) (uEsc n ++ t) = (jsonUnesc f t).map (Char.ofNat n :: ·) := by
  have e1 := hexVal_hexDigit (n / 4096 % 16) (Nat.mod_lt _ (by omega))
  have e2 := hexVal_hexDigit (n / 256 % 16) (Nat.mod_lt _ (by omega))
  have e3 := hexVal_hexDigit (n / 16 % 16) (Nat.mod_lt _ (by omega))
  have e4 := hexVal_hexDigit (n % 16) (Nat.mod_lt _ (by omega))
  have harith : n / 4096 % 16 * 4096 + n / 256 % 16 * 256 + n / 16 % 16 * 16 + n % 16 = n := by
    omega
  show jsonUnesc (f + 1) ('\\' :: 'u' :: hexDigit (n / 4096 % 16) :: hexDigit (n / 256 % 16) ::
    hexDigit (n / 16 % 16) :: hexDigit (n % 16) :: t) = _
  rw [jsonUnesc]
  simp only [reduceCtorEq, reduceIte, Char.reduceEq]
  unfold unescU
  simp only [e1, e2, e3, e4, harith]
  rw [if_neg hs1, if_neg hs2]

theorem jsonUnesc_uEsc_pair (f m : Nat) (t : List Char) (hm : m < 0x100000) :
    jsonUnesc (f + 1) (uEsc (0xD800 + m / 1024) ++ (uEsc (0xDC00 + m % 1024) ++ t)) =
      (jsonUnesc f t).map (Char.ofNat (0x10000 + m) :: ·) := by
  have e1 := hexVal_hexDigit ((0xD800 + m / 1024) / 4096 % 16) (Nat.mod_lt _ (by omega))
  have e2 := hexVal_hexDigit ((0xD800 + m / 1024) / 256 % 16) (Nat.mod_lt _ (by omega))
  have e3 := hexVal_hexDigit ((0xD800 + m / 1024) / 16 % 16) (Nat.mod_lt _ (by omega))
  have e4 := hexVal_hexDigit ((0xD800 + m / 1024) % 16) (Nat.mod_lt _ (by omega))
  have f1 := hexVal_hexDigit ((0xDC00 + m % 1024) / 4096 % 16) (Nat.mod_lt _ (by omega))
  have f2 := hexVal_hexDigit ((0xDC00 + m % 1024) / 256 % 16) (Nat.mod_lt _ (by omega))
  have f3 := hexVal_hexDigit ((0xDC00 + m % 1024) / 16 % 16) (Nat.mod_lt _ (by omega))
  have f4 := hexVal_hexDigit ((0xDC00 + m % 1024) % 16) (Nat.mod_lt _ (by omega))
  have harith1 : (0xD800 + m / 1024) / 4096 % 16 * 4096 + (0xD800 + m / 1024) / 256 % 16 * 256 +
      (0xD800 + m / 1024) / 16 % 16 * 16 + (0xD800 + m / 1024) % 16 = 0xD800 + m / 1024 := by
    omega
  have harith2 : (0xDC00 + m % 1024) / 4096 % 16 * 4096 + (0xDC00 + m % 1024) / 256 % 16 * 256 +
      (0xDC00 + m % 1024) / 16 % 16 * 16 + (0xDC00 + m % 1024) % 16 = 0xDC00 + m % 1024 := by
    omega
  have hg1 : 0xD800 ≤ 0xD800 + m / 1024 ∧ 0xD800 + m / 1024 < 0xDC00 := ⟨by omega, by omega⟩
  have hg2 : 0xDC00 ≤ 0xDC00 + m % 1024 ∧ 0xDC00 + m % 1024 < 0xE000 := ⟨by omega, by omega⟩
  have harith3 : 0x10000 + (0xD800 + m / 1024 - 0xD800) * 1024 + (0xDC00 + m % 1024 - 0xDC00) =
      0x10000 + m := by omega
  show jsonUnesc (f + 1) ('\\' :: 'u' :: hexDigit ((0xD800 + m / 1024) / 4096 % 16) ::
    hexDigit ((0xD800 + m / 1024) / 256 % 16) :: hexDigit ((0xD800 + m / 1024) / 16 % 16) ::
    hexDigit ((0xD800 + m / 1024) % 16) :: ('\\' :: 'u' ::
    hexDigit ((0xDC00 + m % 1024) / 4096 % 16) :: hexDigit ((0xDC00 + m % 1024) / 256 % 16) ::
    hexDigit ((0xDC00 + m % 1024) / 16 % 16) :: hexDigit ((0xDC00 + m % 1024) % 16) :: t)) = _
  rw [jsonUnesc]
  simp only [reduceCtorEq, reduceIte, Char.reduceEq]
  unfold unescU
  simp only [e1, e2, e3, e4, harith1]
  rw [if_pos hg1]
  unfold unescSur
  simp only [f1, f2, f3, f4, harith2]
  rw [if_pos hg2, harith3]

theorem char_not_surrogate (c : Char) :
    c.toNat < 0xD800 ∨ (0xDFFF < c.toNat ∧ c.toNat < 0x110000) := c.valid

theorem jsonUnesc_escChar (f : Nat) (c : Char) (t : List Char) :
    jsonUnesc (f + 1) (jsonEscChar c ++ t) = (jsonUnesc f t).map (c :: ·) := by
  by_cases h1 : c = '"'
  · subst h1
    show jsonUnesc (f + 1) ('\\' :: '"' :: t) = _
    rw [jsonUnesc]
    simp [jsonEscMap]
  by_cases h2 : c = '\\'
  · subst h2
    show jsonUnesc (f + 1) ('\\' :: '\\' :: t) = _
    rw [jsonUnesc]
    simp [jsonEscMap]
  by_cases h3 : c = Char.ofNat 8
  · subst h3
    show jsonUnesc (f + 1) ('\\' :: 'b' :: t) = _
    rw [jsonUnesc]
    simp [jsonEscMap]
  by_cases h4 : c = Char.ofNat 9
  · subst h4
    show jsonUnesc (f + 1) ('\\' :: 't' :: t) = _
    rw [jsonUnesc]
    simp [jsonEscMap]
  by_cases h5 : c = Char.ofNat 10
  · subst h5
    show jsonUnesc (f + 1) ('\\' :: 'n' :: t) = _
    rw [jsonUnesc]
    simp [jsonEscMap]
  by_cases h6 : c = Char.ofNat 12
  · subst h6
    show jsonUnesc (f + 1) ('\\' :: 'f' :: t) = _
    rw [jsonUnesc]
    simp [jsonEscMap]
  by_cases h7 : c = Char.ofNat 13
  · subst h7
    show jsonUnesc (f + 1) ('\\' :: 'r' :: t) = _
    rw [jsonUnesc]
    simp [jsonEscMap]
  by_cases h8 : c.toNat < 0x20
  · rw [show jsonEscChar c = uEsc c.toNat by
      rw [jsonEscChar, if_neg h1, if_neg h2, if_neg h3, if_neg h4, if_neg h5, if_neg h6,
        if_neg h7, if_pos h8]]
    rw [jsonUnesc_uEsc_bmp f c.toNat t (by omega) (by omega) (by omega), Char.ofNat_toNat]
  by_cases h9 : c.toNat < 0x7F
  · rw [show jsonEscChar c = [c] by
      rw [jsonEscChar, if_neg h1, if_neg h2, if_neg h3, if_neg h4, if_neg h5, if_neg h6,
        if_neg h7, if_neg h8, if_pos h9]]
    cases t with
    | nil =>
      show jsonUnesc (f + 1) [c] = _
      rw [jsonUnesc, if_neg h1, if_neg h2, if_neg h8]
    | cons c2 t2 =>
      show jsonUnesc (f + 1) (c :: c2 :: t2) = _
      rw [jsonUnesc, if_neg h1, if_neg h2, if_neg h8]
  by_cases h10 : c.toNat < 0x10000
  · have hv := char_not_surrogate c
    rw [show jsonEscChar c = uEsc c.toNat by
      rw [jsonEscChar, if_neg h1, if_neg h2, if_neg h3, if_neg h4, if_neg h5, if_neg h6,
        if_neg h7, if_neg h8, if_neg h9, if_pos h10]]
    rw [jsonUnesc_uEsc_bmp f c.toNat t (by omega) (by omega) (by omega), Char.ofNat_toNat]
  · have hv := char_not_surrogate c
    rw [show jsonEscChar c =
        uEsc (0xD800 + (c.toNat - 0x10000) / 1024) ++ uEsc (0xDC00 + (c.toNat - 0x10000) % 1024) by
      rw [jsonEscChar, if_neg h1, if_neg h2, if_neg h3, if_neg h4, if_neg h5, if_neg h6,
        if_neg h7, if_neg h8, if_neg h9, if_neg h10]]
    rw [List.append_assoc, jsonUnesc_uEsc_pair f (c.toNat - 0x10000) t (by omega)]
    rw [show 0x10000 + (c.toNat - 0x10000) = c.toNat by omega, Char.ofNat_toNat]

theorem jsonUnesc_escBody (s : List Char) :
    ∀ f, s.length + 1 ≤ f → jsonUnesc f (escBody s ++ ['"']) = some s := by
  induction s with
  | nil =>
    intro f hf
    match f, hf with
    | f + 1, _ =>
      show jsonUnesc (f + 1) ['"'] = some []
      rw [jsonUnesc]
      simp
  | cons c s' ih =>
    intro f hf
    match f, hf with
    | f + 1, hf =>
      show jsonUnesc (f + 1) ((jsonEscChar c ++ escBody s') ++ ['"']) = _
      rw [List.append_assoc, jsonUnesc_escChar, ih f (by simpa using Nat.lt_of_succ_lt_succ hf)]
      rfl

theorem escBody_length (s : List Char) : s.length ≤ (escBody s).length := by
  induction s with
  | nil => simp [escBody]
  | cons c s' ih =>
    show s'.length + 1 ≤ ((jsonEscChar c ++ escBody s')).length
    rw [List.length_append]
    have : 1 ≤ (jsonEscChar c).length := by
      rw [jsonEscChar]
      repeat' split
      all_goals simp [uEsc]
    omega

/-- `String` on the rendered JSON string: the quoted token is scanned,
`json.loads` unescapes it, and the parse succeeds with the original text. -/
theorem pStringTag_jsonDumps (s : List Char) (rest : List Char) :
    pStringTag (jsonDumps s ++ rest) = some (PTag.pstr s, rest) := by
  have htok : pQuotedToken (jsonDumps s ++ rest) =
      some ('"' :: escBody s ++ ['"'], rest) := by
    show pQuotedToken ('"' :: (escBody s ++ ['"'] ++ rest)) = _
    rw [pQuotedToken]
    rw [show (headIs '"' ('"' :: (escBody s ++ ['"'] ++ rest)) ||
      headIs '\'' ('"' :: (escBody s ++ ['"'] ++ rest))) = true from rfl, if_pos rfl]
    simp only [List.headD_cons, List.drop_succ_cons, List.drop_zero, List.append_assoc,
      List.cons_append, List.nil_append]
    rw [scanQ_escBody s rest]
    rfl
  rw [pStringTag]
  simp only [htok, Option.bind_eq_bind, Option.some_bind]
  rw [jsonLoads]
  rw [show headIs '"' ('"' :: escBody s ++ ['"']) = true from rfl, if_pos rfl]
  rw [show List.drop 1 ('"' :: escBody s ++ ['"']) = escBody s ++ ['"'] from rfl]
  rw [jsonUnesc_escBody s _ (by
    have := escBody_length s
    simp only [List.length_cons, List.length_append, List.length_cons, List.length_nil]
    omega)]

/-! ### Round-trip proof: compound keys -/

theorem escBody_plain (k : List Char)
    (hk : ∀ c ∈ k, 0x20 ≤ c.toNat ∧ c.toNat ≤ 0x7E ∧ c ≠ '"' ∧ c ≠ '\\') :
    escBody k = k := by
  induction k with
  | nil => rfl
  | cons c k' ih =>
    obtain ⟨hlo, hhi, hq, hb⟩ := hk c (by simp)
    have hesc : jsonEscChar c = [c] := by
      rw [jsonEscChar, if_neg hq, if_neg hb,
        if_neg (ne_of_toNat_ne (by rw [show (Char.ofNat 8).toNat = 8 from rfl]; omega)),
        if_neg (ne_of_toNat_ne (by rw [show (Char.ofNat 9).toNat = 9 from rfl]; omega)),
        if_neg (ne_of_toNat_ne (by rw [show (Char.ofNat 10).toNat = 10 from rfl]; omega)),
        if_neg (ne_of_toNat_ne (by rw [show (Char.ofNat 12).toNat = 12 from rfl]; omega)),
        if_neg (ne_of_toNat_ne (by rw [show (Char.ofNat 13).toNat = 13 from rfl]; omega)),
        if_neg (by omega), if_pos (by omega)]
    show jsonEscChar c ++ escBody k' = c :: k'
    rw [hesc, ih (fun x hx => hk x (by simp [hx]))]
    rfl

theorem pKey_word (k rest : List Char) (hne : k ≠ [])
    (hall : ∀ c ∈ k, isKeyChar c = true) (hr : headNotP isKeyChar rest) :
    pKey (k ++ rest) = some (k, rest) := by
  rw [pKey]
  simp only [takeWhile_append_of_all k rest hall hr]
  rw [if_pos (by simpa using hne)]
  rw [List.drop_left]

theorem pKey_quoted (k rest : List Char)
    (hplain : ∀ c ∈ k, c ≠ '\\' ∧ c ≠ '"' ∧ c ≠ Char.ofNat 10 ∧ c ≠ Char.ofNat 13) :
    pKey (('"' :: k ++ ['"']) ++ rest) = some (k, rest) := by
  rw [pKey]
  have htw : (('"' :: k ++ ['"']) ++ rest).takeWhile isKeyChar = [] := by
    show (('"' :: (k ++ ['"'] ++ rest))).takeWhile isKeyChar = []
    rw [List.takeWhile_cons_of_neg (by decide)]
  simp only [htw]
  rw [if_neg (by decide)]
  have htok : pQuotedToken (('"' :: k ++ ['"']) ++ rest) = some ('"' :: k ++ ['"'], rest) := by
    show pQuotedToken ('"' :: (k ++ ['"'] ++ rest)) = _
    rw [pQuotedToken]
    rw [show (headIs '"' ('"' :: (k ++ ['"'] ++ rest)) ||
      headIs '\'' ('"' :: (k ++ ['"'] ++ rest))) = true from rfl, if_pos rfl]
    simp only [List.headD_cons, List.drop_succ_cons, List.drop_zero, List.append_assoc,
      List.cons_append, List.nil_append]
    rw [scanQ_plain_list '"' k rest (by decide) hplain]
    rfl
  rw [htok]
  show some (('"' :: k ++ ['"']).drop 1 |>.dropLast, rest) = some (k, rest)
  rw [show ('"' :: k ++ ['"']).drop 1 = k ++ ['"'] from rfl, List.dropLast_concat]

/-- One rendered `key:value` pair parses back to the pair, provided the key is
round-trippable and the value parser accepts the value text. -/
theorem pPairF_entry (pv : Pars PTag) (k : List Char) (v : PTag) (vtxt rest : List Char)
    (hw : wfKey k = true)
    (hpv : ∀ suffix, followOk suffix = true → pv (vtxt ++ suffix) = some (v, suffix))
    (hr : followOk rest = true) :
    pPairF pv ((keyToSnbt k ++ ':' :: vtxt) ++ rest) = some ((k, v), rest) := by
  rw [wfKey, Bool.or_eq_true] at hw
  rcases hw with hw | hw
  · rw [Bool.and_eq_true] at hw
    obtain ⟨hne, hall⟩ := hw
    rw [List.all_eq_true] at hall
    have hany : (k.any fun c => !isKeyChar c) = false := by
      rw [List.any_eq_false]
      intro x hx
      simp [hall x hx]
    have hkey : keyToSnbt k = k := by
      rw [keyToSnbt, hany]
      simp
    rw [hkey, pPairF, List.append_assoc]
    rw [show (':' :: vtxt) ++ rest = ':' :: (vtxt ++ rest) from rfl]
    rw [pKey_word k (':' :: (vtxt ++ rest)) (by simpa using hne) (fun c hc => hall c hc)
      (by exact headNotP_cons _ (by decide))]
    simp only [show headIs ':' (':' :: (vtxt ++ rest)) = true from rfl, if_true,
      List.drop_succ_cons, List.drop_zero, hpv rest hr, Option.map_some']
  · rw [Bool.and_eq_true] at hw
    obtain ⟨hany, hall⟩ := hw
    rw [List.all_eq_true] at hall
    have hprops : ∀ c ∈ k, 0x20 ≤ c.toNat ∧ c.toNat ≤ 0x7E ∧ c ≠ '"' ∧ c ≠ '\\' := by
      intro c hc
      have := hall c hc
      simp only [Bool.and_eq_true, decide_eq_true_eq, bne_iff_ne, ne_eq] at this
      refine ⟨this.1.1.1, this.1.1.2, ?_, ?_⟩
      · simpa using this.1.2
      · simpa using this.2
    have hkey : keyToSnbt k = jsonDumps k := by rw [keyToSnbt, if_pos hany]
    have hesc : escBody k = k := escBody_plain k hprops
    rw [hkey, jsonDumps, hesc, pPairF, List.append_assoc]
    rw [show (':' :: vtxt) ++ rest = ':' :: (vtxt ++ rest) from rfl]
    rw [pKey_quoted k (':' :: (vtxt ++ rest)) (fun c hc => by
      obtain ⟨hlo, hhi, hq, hb⟩ := hprops c hc
      exact ⟨hb, hq, ne_of_toNat_ne (by rw [show (Char.ofNat 10).toNat = 10 from rfl]; omega),
        ne_of_toNat_ne (by rw [show (Char.ofNat 13).toNat = 13 from rfl]; omega)⟩)]
    simp only [show headIs ':' (':' :: (vtxt ++ rest)) = true from rfl, if_true,
      List.drop_succ_cons, List.drop_zero, hpv rest hr, Option.map_some']

/-! ### Round-trip proof: rendered-text head characters and close delimiters -/

theorem toSnbtList_eq_map (xs : List STag) : toSnbtList xs = xs.map toSnbt := by
  induction xs with
  | nil => rfl
  | cons t ts ih => rw [toSnbtList, ih, List.map_cons]

theorem toSnbtEntries_eq_map (kvs : List (List Char × STag)) :
    toSnbtEntries kvs = kvs.map (fun p => keyToSnbt p.1 ++ ':' :: toSnbt p.2) := by
  induction kvs with
  | nil => rfl
  | cons p rest ih =>
    obtain ⟨k, v⟩ := p
    rw [toSnbtEntries, ih, List.map_cons]

theorem ptagList_eq_map (xs : List STag) : ptagList xs = xs.map ptagOf := by
  induction xs with
  | nil => rfl
  | cons t ts ih => rw [ptagList, ih, List.map_cons]

theorem ptagEntries_eq_map (kvs : List (List Char × STag)) :
    ptagEntries kvs = kvs.map (fun p => (p.1, ptagOf p.2)) := by
  induction kvs with
  | nil => rfl
  | cons p rest ih =>
    obtain ⟨k, v⟩ := p
    rw [ptagEntries, ih, List.map_cons]

theorem intChars_head : ∀ (v : Int), ∃ c l, intChars v = c :: l ∧ (isDigitC c = true ∨ c = '-') := by
  intro v
  rw [intChars]
  by_cases hv : v < 0
  · exact ⟨'-', natChars v.natAbs, by rw [if_pos hv], Or.inr rfl⟩
  · rw [if_neg hv]
    obtain ⟨c, l, hcl⟩ := List.exists_cons_of_ne_nil (natChars_ne_nil v.toNat)
    exact ⟨c, l, hcl, Or.inl (natChars_all_digit _ c (by rw [hcl]; simp))⟩

/-- Every rendered tag text starts with a digit, `-`, `"`, `[` or `{`. -/
theorem toSnbt_head (t : STag) :
    ∃ c l, toSnbt t = c :: l ∧
      (isDigitC c = true ∨ c = '-' ∨ c = '"' ∨ c = '[' ∨ c = '{') := by
  cases t with
  | byte v =>
    obtain ⟨c, l, hcl, hc⟩ := intChars_head v
    exact ⟨c, l ++ ['B'], by rw [toSnbt, hcl]; rfl, by tauto⟩
  | short v =>
    obtain ⟨c, l, hcl, hc⟩ := intChars_head v
    exact ⟨c, l ++ ['S'], by rw [toSnbt, hcl]; rfl, by tauto⟩
  | int v =>
    obtain ⟨c, l, hcl, hc⟩ := intChars_head v
    exact ⟨c, l, by rw [toSnbt, hcl], by tauto⟩
  | long v =>
    obtain ⟨c, l, hcl, hc⟩ := intChars_head v
    exact ⟨c, l ++ ['L'], by rw [toSnbt, hcl]; rfl, by tauto⟩
  | str s => exact ⟨'"', escBody s ++ ['"'], rfl, by tauto⟩
  | byteArr vs => exact ⟨'[', _, rfl, by tauto⟩
  | intArr vs => exact ⟨'[', _, rfl, by tauto⟩
  | longArr vs => exact ⟨'[', _, rfl, by tauto⟩
  | list xs => exact ⟨'[', _, rfl, by tauto⟩
  | compound kvs => exact ⟨'{', _, rfl, by tauto⟩

/-- The second character of a rendered list cannot be an array-kind letter:
either the list is empty (`]` follows) or an element text follows. -/
theorem headIs_joinComma_toSnbt (x : Char) (hx : 58 ≤ x.toNat ∧ x ≠ '-' ∧ x ≠ '"' ∧
    x ≠ '[' ∧ x ≠ '{' ∧ x ≠ ']') (xs : List STag) (tail : List Char) :
    headIs x (joinComma (toSnbtList xs) ++ ']' :: tail) = false := by
  obtain ⟨hge, hd, hq, hb, hc, hcl⟩ := hx
  cases xs with
  | nil => exact headIs_eq_false (by tauto)
  | cons t ts =>
    obtain ⟨c, l, hcl', hc'⟩ := toSnbt_head t
    have hcx : c ≠ x := by
      rcases hc' with hdig | rfl | rfl | rfl | rfl
      · have := isDigitC_toNat hdig
        exact ne_of_toNat_ne (by omega)
      · exact fun h => hd h.symm
      · exact fun h => hq h.symm
      · exact fun h => hb h.symm
      · exact fun h => hc h.symm
    rw [toSnbtList]
    cases hts : toSnbtList ts with
    | nil =>
      rw [joinComma, hcl']
      exact headIs_eq_false hcx
    | cons y ys =>
      rw [joinComma, hcl']
      show headIs x (c :: (l ++ ',' :: joinComma (y :: ys)) ++ ']' :: tail) = false
      exact headIs_eq_false hcx
      simp

theorem fuelT_pos (t : STag) : 1 ≤ fuelT t := by
  cases t <;> simp [fuelT]

theorem fuelMax_ge {t : STag} {xs : List STag} (h : t ∈ xs) : fuelT t ≤ fuelMax xs := by
  induction xs with
  | nil => simp at h
  | cons y ys ih =>
    rw [fuelMax]
    rcases List.mem_cons.1 h with rfl | h
    · exact le_max_left _ _
    · exact le_trans (ih h) (le_max_right _ _)

theorem fuelMaxE_ge {k : List Char} {v : STag} {kvs : List (List Char × STag)}
    (h : (k, v) ∈ kvs) : fuelT v ≤ fuelMaxE kvs := by
  induction kvs with
  | nil => simp at h
  | cons p rest ih =>
    obtain ⟨k0, v0⟩ := p
    rw [fuelMaxE]
    rcases List.mem_cons.1 h with heq | h
    · rw [show v = v0 from congrArg Prod.snd heq]
      exact le_max_left _ _
    · exact le_trans (ih h) (le_max_right _ _)

/-- No `SnbtValue` alternative starts at a close delimiter. -/
theorem pValue_close (f : Nat) (r : List Char) (c : Char) (hc : c = ']' ∨ c = '}') :
    pValue f (c :: r) = none := by
  rcases hc with rfl | rfl <;> cases f <;> rfl

theorem pPairF_close (pv : Pars PTag) (r : List Char) :
    pPairF pv ('}' :: r) = none := by
  rfl

theorem pByteElem_close (r : List Char) (c : Char) (hc : c = ']' ∨ c = '}') :
    pByteElem (c :: r) = none := by
  rcases hc with rfl | rfl <;> rfl

theorem pLongElem_close (r : List Char) (c : Char) (hc : c = ']' ∨ c = '}') :
    pLongElem (c :: r) = none := by
  rcases hc with rfl | rfl <;> rfl

theorem pSignedInt_close (r : List Char) (c : Char) (hc : c = ']' ∨ c = '}') :
    pSignedInt (c :: r) = none := by
  rcases hc with rfl | rfl <;> rfl

/-! ### Round-trip proof: rebuilding the tag -/

theorem upsertS_notin (acc : List (List Char × STag)) (k : List Char) (v : STag)
    (h : ∀ q ∈ acc, q.1 ≠ k) : upsertS acc k v = acc ++ [(k, v)] := by
  induction acc with
  | nil => rfl
  | cons p rest ih =>
    obtain ⟨k0, v0⟩ := p
    rw [upsertS, if_neg (h (k0, v0) (by simp)), ih (fun q hq => h q (by simp [hq]))]
    rfl

theorem foldl_upsertS (es : List (List Char × STag)) :
    ∀ acc, (∀ p ∈ es, ∀ q ∈ acc, q.1 ≠ p.1) → wfEntries es = true →
      es.foldl (fun a p => upsertS a p.1 p.2) acc = acc ++ es := by
  induction es with
  | nil => intro acc _ _; simp
  | cons p rest ih =>
    intro acc hacc hwf
    obtain ⟨k, v⟩ := p
    rw [wfEntries] at hwf
    simp only [Bool.and_eq_true] at hwf
    obtain ⟨⟨⟨hk, hv⟩, hdist⟩, hrest⟩ := hwf
    simp only [Bool.not_eq_true', List.any_eq_false, decide_eq_false_iff_not] at hdist
    rw [List.foldl_cons]
    rw [show upsertS acc k v = acc ++ [(k, v)] from
      upsertS_notin acc k v (fun q hq => hacc (k, v) (by simp) q hq)]
    rw [ih (acc ++ [(k, v)]) (fun p hp q hq => by
      rcases List.mem_append.1 hq with hq | hq
      · exact hacc p (by simp [hp]) q hq
      · rw [List.mem_singleton.1 hq]
        exact fun h => hdist p hp (by simp [h.symm])) hrest]
    simp

theorem buildDict_wf (es : List (List Char × STag)) (h : wfEntries es = true) :
    buildDict es = es := by
  rw [buildDict, foldl_upsertS es [] (by simp) h]
  rfl

theorem toUints_map_cast (w : Nat) (vs : List Nat)
    (h : vs.all (fun n => decide (n < 2 ^ w)) = true) :
    toUints w (vs.map Int.ofNat) = some vs := by
  rw [toUints, if_pos]
  · congr 1
    rw [List.map_map]
    have hid : (Int.toNat ∘ Int.ofNat) = id := by
      funext n
      simp
    rw [hid, List.map_id]
  · rw [List.all_eq_true]
    intro x hx
    rw [List.mem_map] at hx
    obtain ⟨n, hn, rfl⟩ := hx
    have hlt := List.all_eq_true.1 h n hn
    simp only [decide_eq_true_eq] at hlt ⊢
    have hofn : Int.ofNat n = (n : Int) := rfl
    rw [hofn]
    refine ⟨Int.natCast_nonneg n, ?_⟩
    exact_mod_cast hlt

mutual

theorem makeTag_ptagOf (t : STag) (hw : wfT t = true) : makeTag (ptagOf t) = some t := by
  cases t with
  | byte v => rfl
  | short v => rfl
  | int v => rfl
  | long v => rfl
  | str s => rfl
  | byteArr vs =>
    rw [ptagOf, makeTag, toUints_map_cast 8 vs (by rw [wfT] at hw; simpa using hw)]
    rfl
  | intArr vs =>
    rw [ptagOf, makeTag, toUints_map_cast 32 vs (by rw [wfT] at hw; simpa using hw)]
    rfl
  | longArr vs =>
    rw [ptagOf, makeTag, toUints_map_cast 64 vs (by rw [wfT] at hw; simpa using hw)]
    rfl
  | list xs =>
    rw [ptagOf, makeTag, makeTags_ptagList xs (by rw [wfT] at hw; exact hw)]
    rfl
  | compound kvs =>
    rw [ptagOf, makeTag, makeEntries_ptagEntries kvs (by rw [wfT] at hw; exact hw)]
    simp only [Option.map_some']
    rw [buildDict_wf kvs (by rw [wfT] at hw; exact hw)]

theorem makeTags_ptagList (xs : List STag) (hw : wfList xs = true) :
    makeTags (ptagList xs) = some xs := by
  cases xs with
  | nil => rfl
  | cons t ts =>
    rw [wfList, Bool.and_eq_true] at hw
    rw [ptagList, makeTags, makeTag_ptagOf t hw.1, makeTags_ptagList ts hw.2]
    rfl

theorem makeEntries_ptagEntries (kvs : List (List Char × STag))
    (hw : wfEntries kvs = true) : makeEntries (ptagEntries kvs) = some kvs := by
  cases kvs with
  | nil => rfl
  | cons p rest =>
    obtain ⟨k, v⟩ := p
    rw [wfEntries] at hw
    simp only [Bool.and_eq_true] at hw
    rw [ptagEntries, makeEntries, makeTag_ptagOf v hw.1.1.2,
      makeEntries_ptagEntries rest hw.2]
    rfl

end

/-! ### Round-trip proof: bracketed tags -/

theorem pSignedInt_natChars (n : Nat) (rest : List Char) (h : headNotP isDigitC rest) :
    pSignedInt (natChars n ++ rest) = some (Int.ofNat n, rest) := by
  have h1 := pSignedInt_intChars (Int.ofNat n) rest h
  rwa [show intChars (Int.ofNat n) = natChars n by
    rw [intChars, if_neg (by exact Int.not_lt.2 (Int.ofNat_nonneg n))]
    rfl] at h1

theorem elemOk_byteElem (n : Nat) : ElemOk pByteElem (natChars n ++ ['B']) (Int.ofNat n) := by
  intro suffix _
  show pByteElem (natChars n ++ ['B'] ++ suffix) = _
  rw [List.append_assoc]
  show pByteElem (natChars n ++ ('B' :: suffix)) = _
  simp [pByteElem, pSignedInt_natChars n ('B' :: suffix) (headNotP_cons _ (by decide)),
    pSuffix, headIs]

theorem elemOk_longElem (n : Nat) : ElemOk pLongElem (natChars n ++ ['L']) (Int.ofNat n) := by
  intro suffix _
  show pLongElem (natChars n ++ ['L'] ++ suffix) = _
  rw [List.append_assoc]
  show pLongElem (natChars n ++ ('L' :: suffix)) = _
  simp [pLongElem, pSignedInt_natChars n ('L' :: suffix) (headNotP_cons _ (by decide)),
    pSuffix, headIs]

theorem elemOk_signedInt (n : Nat) : ElemOk pSignedInt (natChars n) (Int.ofNat n) := by
  intro suffix hs
  exact pSignedInt_natChars n suffix
    (followOk_headNot hs _ ⟨by decide, by decide, by decide⟩)

theorem pByteArrTag_none2 (g : Nat) (inp : List Char) (h : headIs 'B' inp.tail = false) :
    pByteArrTag g inp = none := by
  simp [pByteArrTag, h]

theorem pIntArrTag_none2 (g : Nat) (inp : List Char) (h : headIs 'I' inp.tail = false) :
    pIntArrTag g inp = none := by
  simp [pIntArrTag, h]

theorem pLongArrTag_none2 (g : Nat) (inp : List Char) (h : headIs 'L' inp.tail = false) :
    pLongArrTag g inp = none := by
  simp [pLongArrTag, h]

theorem pByteArrTag_render (g : Nat) (vs : List Nat) (rest : List Char)
    (hg : vs.length ≤ g) ( _hfo : followOk rest = true) :
    pByteArrTag g ('[' :: 'B' :: ';' ::
        (joinComma (vs.map (fun n => natChars n ++ ['B'])) ++ ']' :: rest)) =
      some (PTag.pbyteArr (vs.map Int.ofNat), rest) := by
  rw [pByteArrTag]
  rw [show (headIs '[' ('[' :: 'B' :: ';' ::
      (joinComma (vs.map (fun n => natChars n ++ ['B'])) ++ ']' :: rest)) &&
    headIs 'B' (('[' :: 'B' :: ';' ::
      (joinComma (vs.map (fun n => natChars n ++ ['B'])) ++ ']' :: rest)).drop 1) &&
    headIs ';' (('[' :: 'B' :: ';' ::
      (joinComma (vs.map (fun n => natChars n ++ ['B'])) ++ ']' :: rest)).drop 2)) = true
    from rfl, if_pos rfl]
  show (match pOptList (pSepBy g pByteElem)
      (joinComma (vs.map (fun n => natChars n ++ ['B'])) ++ ']' :: rest) with
    | some (vs, r) => if headIs ']' r then some (PTag.pbyteArr vs, r.drop 1) else none
    | none => none) = _
  cases vs with
  | nil =>
    rw [show joinComma (([] : List Nat).map (fun n => natChars n ++ ['B'])) ++ ']' :: rest =
      ']' :: rest from rfl]
    rw [pOptList, pSepBy, pByteElem_close rest ']' (Or.inl rfl)]
    rfl
  | cons n ns =>
    have hfst : (ns.map (fun m => (natChars m ++ ['B'], Int.ofNat m))).map Prod.fst =
        ns.map (fun m => natChars m ++ ['B']) := by
      rw [List.map_map]
      rfl
    have hsnd : (ns.map (fun m => (natChars m ++ ['B'], Int.ofNat m))).map Prod.snd =
        ns.map Int.ofNat := by
      rw [List.map_map]
      rfl
    rw [List.map_cons, joinComma_sepTail ']' rest _ _, ← hfst]
    have hq := pSepBy_spec pByteElem ']' rest (Or.inl rfl)
      (natChars n ++ ['B'], Int.ofNat n) (ns.map (fun m => (natChars m ++ ['B'], Int.ofNat m)))
      g (by rw [List.length_map]; simp at hg; omega)
      (elemOk_byteElem n)
      (fun it hit => by
        rw [List.mem_map] at hit
        obtain ⟨m, _, rfl⟩ := hit
        exact elemOk_byteElem m)
    rw [pOptList, hq, hsnd]
    rfl

theorem pIntArrTag_render (g : Nat) (vs : List Nat) (rest : List Char)
    (hg : vs.length ≤ g) ( _hfo : followOk rest = true) :
    pIntArrTag g ('[' :: 'I' :: ';' :: (joinComma (vs.map natChars) ++ ']' :: rest)) =
      some (PTag.pintArr (vs.map Int.ofNat), rest) := by
  rw [pIntArrTag]
  rw [show (headIs '[' ('[' :: 'I' :: ';' :: (joinComma (vs.map natChars) ++ ']' :: rest)) &&
    headIs 'I' (('[' :: 'I' :: ';' :: (joinComma (vs.map natChars) ++ ']' :: rest)).drop 1) &&
    headIs ';' (('[' :: 'I' :: ';' :: (joinComma (vs.map natChars) ++ ']' :: rest)).drop 2)) =
    true from rfl, if_pos rfl]
  show (match pOptList (pSepBy g pSignedInt) (joinComma (vs.map natChars) ++ ']' :: rest) with
    | some (vs, r) => if headIs ']' r then some (PTag.pintArr vs, r.drop 1) else none
    | none => none) = _
  cases vs with
  | nil =>
    rw [show joinComma (([] : List Nat).map natChars) ++ ']' :: rest = ']' :: rest from rfl]
    rw [pOptList, pSepBy, pSignedInt_close rest ']' (Or.inl rfl)]
    rfl
  | cons n ns =>
    have hfst : (ns.map (fun m => (natChars m, Int.ofNat m))).map Prod.fst = ns.map natChars := by
      rw [List.map_map]
      rfl
    have hsnd : (ns.map (fun m => (natChars m, Int.ofNat m))).map Prod.snd =
        ns.map Int.ofNat := by
      rw [List.map_map]
      rfl
    rw [List.map_cons, joinComma_sepTail ']' rest _ _, ← hfst]
    have hq := pSepBy_spec pSignedInt ']' rest (Or.inl rfl)
      (natChars n, Int.ofNat n) (ns.map (fun m => (natChars m, Int.ofNat m)))
      g (by rw [List.length_map]; simp at hg; omega)
      (elemOk_signedInt n)
      (fun it hit => by
        rw [List.mem_map] at hit
        obtain ⟨m, _, rfl⟩ := hit
        exact elemOk_signedInt m)
    rw [pOptList, hq, hsnd]
    rfl

theorem pLongArrTag_render (g : Nat) (vs : List Nat) (rest : List Char)
    (hg : vs.length ≤ g) ( _hfo : followOk rest = true) :
    pLongArrTag g ('[' :: 'L' :: ';' ::
        (joinComma (vs.map (fun n => natChars n ++ ['L'])) ++ ']' :: rest)) =
      some (PTag.plongArr (vs.map Int.ofNat), rest) := by
  rw [pLongArrTag]
  rw [show (headIs '[' ('[' :: 'L' :: ';' ::
      (joinComma (vs.map (fun n => natChars n ++ ['L'])) ++ ']' :: rest)) &&
    headIs 'L' (('[' :: 'L' :: ';' ::
      (joinComma (vs.map (fun n => natChars n ++ ['L'])) ++ ']' :: rest)).drop 1) &&
    headIs ';' (('[' :: 'L' :: ';' ::
      (joinComma (vs.map (fun n => natChars n ++ ['L'])) ++ ']' :: rest)).drop 2)) = true
    from rfl, if_pos rfl]
  show (match pOptList (pSepBy g pLongElem)
      (joinComma (vs.map (fun n => natChars n ++ ['L'])) ++ ']' :: rest) with
    | some (vs, r) => if headIs ']' r then some (PTag.plongArr vs, r.drop 1) else none
    | none => none) = _
  cases vs with
  | nil =>
    rw [show joinComma (([] : List Nat).map (fun n => natChars n ++ ['L'])) ++ ']' :: rest =
      ']' :: rest from rfl]
    rw [pOptList, pSepBy, pLongElem_close rest ']' (Or.inl rfl)]
    rfl
  | cons n ns =>
    have hfst : (ns.map (fun m => (natChars m ++ ['L'], Int.ofNat m))).map Prod.fst =
        ns.map (fun m => natChars m ++ ['L']) := by
      rw [List.map_map]
      rfl
    have hsnd : (ns.map (fun m => (natChars m ++ ['L'], Int.ofNat m))).map Prod.snd =
        ns.map Int.ofNat := by
      rw [List.map_map]
      rfl
    rw [List.map_cons, joinComma_sepTail ']' rest _ _, ← hfst]
    have hq := pSepBy_spec pLongElem ']' rest (Or.inl rfl)
      (natChars n ++ ['L'], Int.ofNat n) (ns.map (fun m => (natChars m ++ ['L'], Int.ofNat m)))
      g (by rw [List.length_map]; simp at hg; omega)
      (elemOk_longElem n)
      (fun it hit => by
        rw [List.mem_map] at hit
        obtain ⟨m, _, rfl⟩ := hit
        exact elemOk_longElem m)
    rw [pOptList, hq, hsnd]
    rfl

theorem wfList_mem {t : STag} {xs : List STag} (h : t ∈ xs) (hw : wfList xs = true) :
    wfT t = true := by
  induction xs with
  | nil => simp at h
  | cons y ys ih =>
    rw [wfList, Bool.and_eq_true] at hw
    rcases List.mem_cons.1 h with rfl | h
    · exact hw.1
    · exact ih h hw.2

theorem wfEntries_mem {k : List Char} {v : STag} {kvs : List (List Char × STag)}
    (h : (k, v) ∈ kvs) (hw : wfEntries kvs = true) : wfKey k = true ∧ wfT v = true := by
  induction kvs with
  | nil => simp at h
  | cons p rest ih =>
    obtain ⟨k0, v0⟩ := p
    rw [wfEntries] at hw
    simp only [Bool.and_eq_true] at hw
    rcases List.mem_cons.1 h with heq | h
    · obtain ⟨rfl, rfl⟩ := Prod.mk.injEq .. ▸ Prod.ext_iff.1 heq
      exact ⟨hw.1.1.1, hw.1.1.2⟩
    · exact ih h hw.2

theorem pListTagF_render (pv : Pars PTag) (g : Nat) (items : List (List Char × PTag))
    (rest : List Char) (hg : items.length ≤ g)
    (hclose : pv (']' :: rest) = none)
    (hel : ∀ it ∈ items, ElemOk pv it.1 it.2) :
    pListTagF pv g ('[' :: (joinComma (items.map Prod.fst) ++ ']' :: rest)) =
      some (PTag.plist (items.map Prod.snd), rest) := by
  rw [pListTagF]
  rw [show headIs '[' ('[' :: (joinComma (items.map Prod.fst) ++ ']' :: rest)) = true
    from rfl, if_pos rfl]
  show (match pOptList (pSepBy g pv) (joinComma (items.map Prod.fst) ++ ']' :: rest) with
    | some (xs, r) => if headIs ']' r then some (PTag.plist xs, r.drop 1) else none
    | none => none) = _
  cases items with
  | nil =>
    rw [show joinComma (([] : List (List Char × PTag)).map Prod.fst) ++ ']' :: rest =
      ']' :: rest from rfl]
    rw [pOptList, pSepBy, hclose]
    rfl
  | cons it more =>
    rw [List.map_cons, joinComma_sepTail ']' rest _ _]
    have hq := pSepBy_spec pv ']' rest (Or.inl rfl) it more g
      (by simp at hg; omega)
      (hel it (by simp))
      (fun x hx => hel x (by simp [hx]))
    rw [pOptList, hq]
    rfl

theorem pCompoundTagF_render (pv : Pars PTag) (g : Nat)
    (items : List (List Char × (List Char × PTag))) (rest : List Char)
    (hg : items.length ≤ g)
    (hel : ∀ it ∈ items, ElemOk (pPairF pv) it.1 it.2) :
    pCompoundTagF pv g ('{' :: (joinComma (items.map Prod.fst) ++ '}' :: rest)) =
      some (PTag.pcompound (items.map Prod.snd), rest) := by
  rw [pCompoundTagF]
  rw [show headIs '{' ('{' :: (joinComma (items.map Prod.fst) ++ '}' :: rest)) = true
    from rfl, if_pos rfl]
  show (match pOptList (pSepBy g (pPairF pv)) (joinComma (items.map Prod.fst) ++ '}' :: rest) with
    | some (kvs, r) => if headIs '}' r then some (PTag.pcompound kvs, r.drop 1) else none
    | none => none) = _
  cases items with
  | nil =>
    rw [show joinComma (([] : List (List Char × (List Char × PTag))).map Prod.fst) ++
      '}' :: rest = '}' :: rest from rfl]
    rw [pOptList, pSepBy, pPairF_close pv rest]
    rfl
  | cons it more =>
    rw [List.map_cons, joinComma_sepTail '}' rest _ _]
    have hq := pSepBy_spec (pPairF pv) '}' rest (Or.inr rfl) it more g
      (by simp at hg; omega)
      (hel it (by simp))
      (fun x hx => hel x (by simp [hx]))
    rw [pOptList, hq]
    rfl

/-- The central round-trip lemma: the rendered text of a well-formed fragment
tag, followed by anything a value may legally precede, parses back to the
tag's parse-level image with exactly that remainder left, under any
sufficient fuel. -/
theorem pValue_toSnbt :
    ∀ f t rest, fuelT t ≤ f → wfT t = true → followOk rest = true →
      pValue f (toSnbt t ++ rest) = some (ptagOf t, rest) := by
  intro f
  induction f with
  | zero =>
    intro t rest hf _ _
    exact absurd hf (by have := fuelT_pos t; omega)
  | succ f ih =>
    intro t rest hf hw hfo
    have hsfx : ∀ u l : Char, u ≠ ',' ∧ u ≠ ']' ∧ u ≠ '}' → l ≠ ',' ∧ l ≠ ']' ∧ l ≠ '}' →
        pSuffix u l rest = none := fun u l hu hl => pSuffix_followOk_none hfo hu hl
    cases t with
    | byte v =>
      show pValue (f + 1) ((intChars v ++ ['B']) ++ rest) = _
      rw [List.append_assoc]
      show pValue (f + 1) (intChars v ++ ('B' :: rest)) = _
      simp only [pValue]
      rw [pByteTag_suffixed v rest]
      rfl
    | short v =>
      show pValue (f + 1) ((intChars v ++ ['S']) ++ rest) = _
      rw [List.append_assoc]
      show pValue (f + 1) (intChars v ++ ('S' :: rest)) = _
      simp only [pValue]
      rw [pByteTag_shortText v rest, pShortTag_suffixed v rest]
      rfl
    | long v =>
      show pValue (f + 1) ((intChars v ++ ['L']) ++ rest) = _
      rw [List.append_assoc]
      show pValue (f + 1) (intChars v ++ ('L' :: rest)) = _
      simp only [pValue]
      rw [pByteTag_longText v rest, pShortTag_longText v rest, pLongTag_suffixed v rest]
      rfl
    | int v =>
      show pValue (f + 1) (intChars v ++ rest) = _
      simp only [pValue]
      have hnf := followOk_numFollow hfo
      rw [pByteTag_int v rest hnf (hsfx 'B' 'b' ⟨by decide, by decide, by decide⟩
          ⟨by decide, by decide, by decide⟩),
        pShortTag_int v rest hnf (hsfx 'S' 's' ⟨by decide, by decide, by decide⟩
          ⟨by decide, by decide, by decide⟩),
        pLongTag_int v rest hnf (hsfx 'L' 'l' ⟨by decide, by decide, by decide⟩
          ⟨by decide, by decide, by decide⟩),
        pFloatTag_int v rest hnf (hsfx 'F' 'f' ⟨by decide, by decide, by decide⟩
          ⟨by decide, by decide, by decide⟩),
        pDoubleTag_int v rest hnf (hsfx 'D' 'd' ⟨by decide, by decide, by decide⟩
          ⟨by decide, by decide, by decide⟩),
        pIntTag_int v rest hnf]
      rfl
    | str s =>
      show pValue (f + 1) (jsonDumps s ++ rest) = _
      simp only [pValue]
      obtain ⟨hb, hsh, hlg, hfl, hdb, hit⟩ := numerics_none (jsonDumps s ++ rest)
        (headNotP_cons _ (by decide))
      rw [hb, hsh, hlg, hfl, hdb, hit, pStringTag_jsonDumps s rest]
      rfl
    | byteArr vs =>
      rw [fuelT] at hf
      rw [wfT] at hw
      show pValue (f + 1) ('[' :: 'B' :: ';' ::
        ((joinComma (vs.map (fun n => natChars n ++ ['B'])) ++ [']']) ++ rest)) = _
      rw [List.append_assoc]
      rw [show ([']'] : List Char) ++ rest = ']' :: rest from rfl]
      simp only [pValue]
      obtain ⟨hb, hsh, hlg, hfl, hdb, hit⟩ := numerics_none ('[' :: 'B' :: ';' ::
        (joinComma (vs.map (fun n => natChars n ++ ['B'])) ++ ']' :: rest))
        (headNotP_cons _ (by decide))
      rw [hb, hsh, hlg, hfl, hdb, hit, pStringTag_none ('[' :: 'B' :: ';' ::
          (joinComma (vs.map (fun n => natChars n ++ ['B'])) ++ ']' :: rest))
          (headNotP_cons _ (by decide)),
        pByteArrTag_render f vs rest (by omega) hfo]
      rfl
    | intArr vs =>
      rw [fuelT] at hf
      rw [wfT] at hw
      show pValue (f + 1) ('[' :: 'I' :: ';' ::
        ((joinComma (vs.map natChars) ++ [']']) ++ rest)) = _
      rw [List.append_assoc]
      rw [show ([']'] : List Char) ++ rest = ']' :: rest from rfl]
      simp only [pValue]
      obtain ⟨hb, hsh, hlg, hfl, hdb, hit⟩ := numerics_none ('[' :: 'I' :: ';' ::
        (joinComma (vs.map natChars) ++ ']' :: rest)) (headNotP_cons _ (by decide))
      rw [hb, hsh, hlg, hfl, hdb, hit, pStringTag_none ('[' :: 'I' :: ';' ::
          (joinComma (vs.map natChars) ++ ']' :: rest)) (headNotP_cons _ (by decide)),
        pByteArrTag_none2 f ('[' :: 'I' :: ';' ::
          (joinComma (vs.map natChars) ++ ']' :: rest)) rfl,
        pIntArrTag_render f vs rest (by omega) hfo]
      rfl
    | longArr vs =>
      rw [fuelT] at hf
      rw [wfT] at hw
      show pValue (f + 1) ('[' :: 'L' :: ';' ::
        ((joinComma (vs.map (fun n => natChars n ++ ['L'])) ++ [']']) ++ rest)) = _
      rw [List.append_assoc]
      rw [show ([']'] : List Char) ++ rest = ']' :: rest from rfl]
      simp only [pValue]
      obtain ⟨hb, hsh, hlg, hfl, hdb, hit⟩ := numerics_none ('[' :: 'L' :: ';' ::
        (joinComma (vs.map (fun n => natChars n ++ ['L'])) ++ ']' :: rest))
        (headNotP_cons _ (by decide))
      rw [hb, hsh, hlg, hfl, hdb, hit, pStringTag_none ('[' :: 'L' :: ';' ::
          (joinComma (vs.map (fun n => natChars n ++ ['L'])) ++ ']' :: rest))
          (headNotP_cons _ (by decide)),
        pByteArrTag_none2 f ('[' :: 'L' :: ';' ::
          (joinComma (vs.map (fun n => natChars n ++ ['L'])) ++ ']' :: rest)) rfl,
        pIntArrTag_none2 f ('[' :: 'L' :: ';' ::
          (joinComma (vs.map (fun n => natChars n ++ ['L'])) ++ ']' :: rest)) rfl,
        pLongArrTag_render f vs rest (by omega) hfo]
      rfl
    | list xs =>
      rw [fuelT] at hf
      rw [wfT] at hw
      show pValue (f + 1) ('[' :: ((joinComma (toSnbtList xs) ++ [']']) ++ rest)) = _
      rw [List.append_assoc]
      rw [show ([']'] : List Char) ++ rest = ']' :: rest from rfl]
      simp only [pValue]
      obtain ⟨hb, hsh, hlg, hfl, hdb, hit⟩ := numerics_none
        ('[' :: (joinComma (toSnbtList xs) ++ ']' :: rest)) (headNotP_cons _ (by decide))
      have hhead : ∀ x : Char, 58 ≤ x.toNat → x ≠ '-' → x ≠ '"' → x ≠ '[' → x ≠ '{' →
          x ≠ ']' → headIs x (joinComma (toSnbtList xs) ++ ']' :: rest) = false :=
        fun x h1 h2 h3 h4 h5 h6 =>
          headIs_joinComma_toSnbt x ⟨h1, h2, h3, h4, h5, h6⟩ xs rest
      have hitems : toSnbtList xs = (xs.map (fun t => (toSnbt t, ptagOf t))).map Prod.fst := by
        rw [toSnbtList_eq_map, List.map_map]
        rfl
      rw [hb, hsh, hlg, hfl, hdb, hit, pStringTag_none
          ('[' :: (joinComma (toSnbtList xs) ++ ']' :: rest)) (headNotP_cons _ (by decide)),
        pByteArrTag_none2 f ('[' :: (joinComma (toSnbtList xs) ++ ']' :: rest))
          (hhead 'B' (by decide) (by decide) (by decide) (by decide) (by decide) (by decide)),
        pIntArrTag_none2 f ('[' :: (joinComma (toSnbtList xs) ++ ']' :: rest))
          (hhead 'I' (by decide) (by decide) (by decide) (by decide) (by decide) (by decide)),
        pLongArrTag_none2 f ('[' :: (joinComma (toSnbtList xs) ++ ']' :: rest))
          (hhead 'L' (by decide) (by decide) (by decide) (by decide) (by decide) (by decide)),
        hitems,
        pListTagF_render (pValue f) f (xs.map (fun t => (toSnbt t, ptagOf t))) rest
          (by rw [List.length_map]; omega)
          (pValue_close f rest ']' (Or.inl rfl))
          (fun it hit => by
            rw [List.mem_map] at hit
            obtain ⟨t', ht', rfl⟩ := hit
            intro suffix hsf
            exact ih t' suffix (by have := fuelMax_ge ht'; omega) (wfList_mem ht' hw) hsf)]
      rw [show ((xs.map (fun t => (toSnbt t, ptagOf t))).map Prod.snd) = ptagList xs by
        rw [List.map_map, ptagList_eq_map]
        rfl]
      rfl
    | compound kvs =>
      rw [fuelT] at hf
      rw [wfT] at hw
      show pValue (f + 1) ('{' :: ((joinComma (toSnbtEntries kvs) ++ ['}']) ++ rest)) = _
      rw [List.append_assoc]
      rw [show (['}'] : List Char) ++ rest = '}' :: rest from rfl]
      simp only [pValue]
      obtain ⟨hb, hsh, hlg, hfl, hdb, hit⟩ := numerics_none
        ('{' :: (joinComma (toSnbtEntries kvs) ++ '}' :: rest)) (headNotP_cons _ (by decide))
      have hitems : toSnbtEntries kvs =
          ((kvs.map (fun p => (keyToSnbt p.1 ++ ':' :: toSnbt p.2, (p.1, ptagOf p.2)))).map
            Prod.fst) := by
        rw [toSnbtEntries_eq_map, List.map_map]
        rfl
      obtain ⟨hba, hia, hla⟩ := pArrTags_not_bracket f
        ('{' :: (joinComma (toSnbtEntries kvs) ++ '}' :: rest)) rfl
      rw [hb, hsh, hlg, hfl, hdb, hit, pStringTag_none
          ('{' :: (joinComma (toSnbtEntries kvs) ++ '}' :: rest)) (headNotP_cons _ (by decide)),
        hba, hia, hla,
        pListTagF_not_bracket (pValue f) f
          ('{' :: (joinComma (toSnbtEntries kvs) ++ '}' :: rest)) rfl,
        hitems,
        pCompoundTagF_render (pValue f) f
          (kvs.map (fun p => (keyToSnbt p.1 ++ ':' :: toSnbt p.2, (p.1, ptagOf p.2)))) rest
          (by rw [List.length_map]; omega)
          (fun it hit => by
            rw [List.mem_map] at hit
            obtain ⟨p, hp, rfl⟩ := hit
            obtain ⟨k, v⟩ := p
            intro suffix hsf
            exact pPairF_entry (pValue f) k (ptagOf v) (toSnbt v) suffix
              (wfEntries_mem hp hw).1
              (fun suf hsuf => ih v suf (by have := fuelMaxE_ge hp; omega)
                (wfEntries_mem hp hw).2 hsuf)
              hsf)]
      rw [show ((kvs.map (fun p => (keyToSnbt p.1 ++ ':' :: toSnbt p.2,
          (p.1, ptagOf p.2)))).map Prod.snd) = ptagEntries kvs by
        rw [List.map_map, ptagEntries_eq_map]
        rfl]
      rfl

/-- C2 counterexample: the compound `{"": Int(1)}` renders as `{:1}` (the
empty key is left unquoted by `key_to_snbt`), and no amount of parser fuel
makes `from_snbt` accept that text — `CompoundKey` requires a non-empty word
or a quoted string, so the whole parse fails. The claimed equality
`from_snbt(to_snbt(v)) == v` therefore does not hold for every tag built of
the listed kinds. -/
theorem c2_counterexample :
    toSnbt (STag.compound [([], STag.int 1)]) = ['{', ':', '1', '}'] ∧
    ∀ f, from_snbt f ['{', ':', '1', '}'] = none := by
  refine ⟨rfl, fun f => ?_⟩
  cases f with
  | zero => rfl
  | succ f => rfl

/-- C2 (corrected): on the non-float fragment — Byte, Short, Int, Long,
String, the three packed arrays (with elements in their backing range, the
only constructible values), List and Compound — `from_snbt (to_snbt v)`
returns the original tag, provided every compound key in `v` either is a
non-empty word over the unquoted-key alphabet or needs quotes but consists
of printable ASCII other than `"` and `\` (and sibling keys are distinct, as
Python dict keys are). Float/Double are excluded: their values pass through
host-float formatting, outside this embedding. -/
theorem c2_roundtrip_amended (t : STag) (f : Nat) (hf : fuelT t ≤ f) (hw : wfT t = true) :
    from_snbt f (toSnbt t) = some t := by
  have hp := pValue_toSnbt f t [] hf hw rfl
  rw [List.append_nil] at hp
  rw [from_snbt, hp]
  exact makeTag_ptagOf t hw

theorem c2_roundtrip_amended_witness :
    fuelT (STag.compound [(['a'], STag.list [STag.byte 3, STag.str ['h', 'i']]),
      (['k', '!'], STag.byteArr [255])]) ≤ 9 ∧
    wfT (STag.compound [(['a'], STag.list [STag.byte 3, STag.str ['h', 'i']]),
      (['k', '!'], STag.byteArr [255])]) = true ∧
    from_snbt 9 (toSnbt (STag.compound [(['a'], STag.list [STag.byte 3, STag.str ['h', 'i']]),
      (['k', '!'], STag.byteArr [255])])) =
      some (STag.compound [(['a'], STag.list [STag.byte 3, STag.str ['h', 'i']]),
        (['k', '!'], STag.byteArr [255])]) :=
  ⟨by decide, by decide, c2_roundtrip_amended _ 9 (by decide) (by decide)⟩
